import Mathlib

/-!
# Verification of the taxonomy-service core

Shallow embedding of the taxonomy-service repository
(`src/taxonomy/parser.py`, `src/taxonomy/registry.py`,
`src/search/searcher.py`, `src/search/normalizedsearcher.py`)
together with proofs of the specified properties.

Modelling conventions:
* Python strings are `String`; numeric scores are `ℚ` (the floating-point
  score values produced by the external embedding model and the
  Jaro-Winkler similarity are not shallow-embeddable, so the combined
  per-document score of `Searcher.__call__` line 155-161 is a parameter
  of the embedding and every theorem quantifies over it);
* fallible code returns `Option`/`Except`;
* Python dicts for taxonomy nodes are records; the optional `children`
  and `metadata` keys are `Option` fields; the opaque metadata payload
  is a type parameter `μ`.
-/

namespace TaxonomyService

/-! ## `levels` and the depth penalty (src/search/searcher.py lines 67-82, 131) -/

/-- `levels(id)` on the character list of the id, from
`src/search/searcher.py` lines 80-82:
`if len(id) == 0: return 0; return (id[:2] != "00") + levels(id[2:])`.
The three cases are length 0, length 1 (where `id[:2]` is the single
character, which can never equal the two-character string `"00"`), and
length ≥ 2. -/
def levelsL : List Char → Nat
  | [] => 0
  | [a] => if [a] = ['0', '0'] then 0 else 1
  | a :: b :: rest => (if [a, b] = ['0', '0'] then 0 else 1) + levelsL rest

/-- `levels` on strings, `src/search/searcher.py` line 67. -/
def levels (id : String) : Nat := levelsL id.data

/-- Per-document depth penalty `0.03 * levels(id)`,
`src/search/searcher.py` line 131. -/
def penalty (id : String) : ℚ := 3 / 100 * levels id

/-- Specification-side characterisation used by the `levels` claim:
split a list into segments of width 2 from the left (a trailing odd
character forms its own segment). -/
def chunks2 : List Char → List (List Char)
  | [] => []
  | [a] => [[a]]
  | a :: b :: rest => [a, b] :: chunks2 rest

/-! ## `Searcher.__call__` (src/search/searcher.py lines 149-180) -/

/-- One indexed document of a `Searcher`, with the combined score the
query produced for it.  `raw` stands for the value of `scores[i]` after
`src/search/searcher.py` lines 155-161 (the max of the semantic score
and the squared Jaro-Winkler score): those are computed by the external
spacy model and float arithmetic, so the embedding takes them as input
and the theorems hold for every possible value. -/
structure SDoc where
  id : String
  name : String
  raw : ℚ
deriving DecidableEq, Repr

/-- Thresholding and penalty subtraction,
`src/search/searcher.py` lines 163-164:
`scores[scores < threshold] = -1; scores = scores - self.penalty`. -/
def adjScore (t : ℚ) (d : SDoc) : ℚ :=
  (if d.raw < t then -1 else d.raw) - penalty d.id

/-- Comparator of the first stable sort: ascending by id
(`np.argsort(self.ids, kind="stable")`, line 171). -/
def leId (a b : SDoc) : Bool := a.id ≤ b.id

/-- Comparator of the second stable sort: ascending by name (line 172). -/
def leName (a b : SDoc) : Bool := a.name ≤ b.name

/-- Comparator of the third stable sort: ascending by `-score`,
i.e. descending by score (line 173). -/
def leScoreDesc (t : ℚ) (a b : SDoc) : Bool := adjScore t b ≤ adjScore t a

/-- The composition of the three stable sorts of
`src/search/searcher.py` lines 171-173, in source order: ascending by
id, then ascending by name, then descending by score.  `np.argsort`
with `kind="stable"` is a stable sort, as is `List.mergeSort`. -/
def rankDocs (t : ℚ) (docs : List SDoc) : List SDoc :=
  ((docs.mergeSort leId).mergeSort leName).mergeSort (leScoreDesc t)

/-- The surviving candidates of `Searcher.__call__`
(lines 175-178): truncate the ranked candidates to `n`
(`best_rows = best_rows[:n]`), keep those with score strictly above
`scores.max() * relative_threshold`, then those with score strictly
above 0.  `maxAll` is `scores.max()`, the maximum adjusted score over
the whole index. -/
def searcherKept (docs : List SDoc) (n : Nat) (maxAll t r : ℚ) : List SDoc :=
  ((((rankDocs t docs).take n).filter
      (fun d => decide (maxAll * r < adjScore t d))).filter
    (fun d => decide (0 < adjScore t d)))

/-- `Searcher.__call__` result rows, lines 149-180: parallel arrays
`(ids, names, scores)` modelled as a list of triples.  `none` models
the `ValueError` numpy raises at `scores.max()` when the index is
empty.  The empty-normalized-query early return (line 152-153, result
`([], [], [])`) trivially satisfies every property proved below and is
not modelled separately; `n` is a natural number (the `maxResults`
parameter of the HTTP interface is non-negative). -/
def searcherCall (docs : List SDoc) (n : Nat) (t r : ℚ) :
    Option (List (String × String × ℚ)) :=
  (docs.map (adjScore t)).maximum.map fun maxAll =>
    (searcherKept docs n maxAll t r).map fun d => (d.id, d.name, adjScore t d)

/-- Specification-side order for the ranking claim: highest score
first, equal scores ordered by name ascending, remaining ties by id
ascending (non-strict in the last component). -/
def lexAfter (t : ℚ) (a b : SDoc) : Prop :=
  adjScore t b < adjScore t a ∨
    (adjScore t a = adjScore t b ∧
      (a.name < b.name ∨ (a.name = b.name ∧ a.id ≤ b.id)))

/-- The same order on the returned `(id, name, score)` rows. -/
def rowLex (x y : String × String × ℚ) : Prop :=
  y.2.2 < x.2.2 ∨
    (x.2.2 = y.2.2 ∧ (x.2.1 < y.2.1 ∨ (x.2.1 = y.2.1 ∧ x.1 ≤ y.1)))

/-! ## Taxonomy trees (src/taxonomy/parser.py) -/

/-- A built taxonomy node: the node dicts produced by `buildtree`
carry keys `id`, `name`, optionally `metadata` and optionally
`children` (`_discardempty` removes empty children lists).  The opaque
metadata payload is the type parameter `μ`. -/
inductive TNode (μ : Type) where
  | mk (id : String) (name : String) (metadata : Option μ)
      (children : Option (List (TNode μ)))

/-- Build-phase node (`_append` creates every node with a `children`
list, possibly empty; `_discardempty` runs only at the end). -/
inductive BNode (μ : Type) where
  | mk (id : String) (name : String) (metadata : Option μ)
      (children : List (BNode μ))

/-- A node descriptor of the persisted flat format:
`{id, name, parent_id?, metadata?}`. -/
structure GNode (μ : Type) where
  id : String
  name : String
  parent_id : Option String := none
  metadata : Option μ := none

/-- Input record of `buildtree` (`{"name", "version", "nodes"}`);
only `nodes` drives the tree construction. -/
structure GInput (μ : Type) where
  name : String
  version : String
  nodes : List (GNode μ)

def TNode.id : TNode μ → String
  | .mk i _ _ _ => i

def TNode.name : TNode μ → String
  | .mk _ n _ _ => n

def TNode.metadata : TNode μ → Option μ
  | .mk _ _ m _ => m

def TNode.children : TNode μ → Option (List (TNode μ))
  | .mk _ _ _ c => c

def BNode.id : BNode μ → String
  | .mk i _ _ _ => i

/-- `Taxonomy._remove_children` (src/taxonomy/registry.py lines
196-204): copy of the node dict without its `children` key. -/
def removeChildren : TNode μ → TNode μ
  | .mk i n m _ => .mk i n m none

/-- Errors of tree construction.  `duplicateId` and `unknownParent`
are the two `ValueError`s of `_append` (src/taxonomy/parser.py lines
135-142); `emptyTree` models the `KeyError` that
`_discardempty(tree)["children"]` (line 73) raises when no root was
ever appended. -/
inductive BuildError where
  | duplicateId (id : String)
  | unknownParent (id : String)
  | emptyTree
deriving DecidableEq, Repr

/-- Append `nw` to the children of the node whose id is `pid`.  The
Python code mutates the dict `nodes[parent_id]` in place; since ids
are unique (enforced by the duplicate check) that dict is the single
node with id `pid` wherever it sits in the tree, which this recursive
rewrite reproduces. -/
def attachB (pid : String) (nw : BNode μ) : List (BNode μ) → List (BNode μ)
  | [] => []
  | .mk i n m cs :: rest =>
    (if i = pid then BNode.mk i n m (cs ++ [nw])
     else BNode.mk i n m (attachB pid nw cs)) :: attachB pid nw rest

/-- `_append` (src/taxonomy/parser.py lines 76-145) as a step on the
state `(forest, seen)`: `forest` is the container's children list and
`seen` the insertion-ordered key list of the `nodes` dict.  The
duplicate-id check (line 135) precedes the parent lookup (lines
137-143); an absent or empty (falsy) `parent_id` appends at top
level. -/
def appendStep (st : List (BNode μ) × List String) (item : GNode μ) :
    Except BuildError (List (BNode μ) × List String) :=
  let nw : BNode μ := .mk item.id item.name item.metadata []
  if item.id ∈ st.2 then .error (.duplicateId item.id)
  else
    match item.parent_id with
    | some pid =>
      if pid = "" then .ok (st.1 ++ [nw], st.2 ++ [item.id])
      else if pid ∈ st.2 then .ok (attachB pid nw st.1, st.2 ++ [item.id])
      else .error (.unknownParent pid)
    | none => .ok (st.1 ++ [nw], st.2 ++ [item.id])

mutual

/-- `_discardempty` (src/taxonomy/parser.py lines 212-232): strip the
`children` key from every node whose children list is empty.  (The
Python `if x` filter skips `None` placeholders of a legacy
preallocation scheme; the embedding has no `None` entries.) -/
def discardemptyB : BNode μ → TNode μ
  | .mk i n m cs =>
    .mk i n m (if cs.isEmpty then none else some (discardemptyL cs))

def discardemptyL : List (BNode μ) → List (TNode μ)
  | [] => []
  | b :: rest => discardemptyB b :: discardemptyL rest

end

/-- `buildtree` (src/taxonomy/parser.py lines 23-73).  The
`jsonschema.validate` call cannot fail here: the schema (per the spec,
§4.1) only requires the `name`, `version`, `nodes`, `id` and `name`
fields, which the typed input carries by construction.  The final
`_discardempty(tree)["children"]` raises `KeyError` when the root
children list is empty, modelled by `.emptyTree`. -/
def buildtree (items : GInput μ) : Except BuildError (List (TNode μ)) := do
  let st ← items.nodes.foldlM appendStep ([], [])
  match st.1 with
  | [] => .error .emptyTree
  | roots => .ok (roots.map discardemptyB)

mutual

/-- Number of nodes of a tree (termination measure for the queue of
the breadth-first flattening). -/
def tsize : TNode μ → Nat
  | .mk _ _ _ none => 1
  | .mk _ _ _ (some cs) => 1 + tsizeL cs

def tsizeL : List (TNode μ) → Nat
  | [] => 0
  | t :: ts => tsize t + tsizeL ts

end

/-- Queue loop of `_to_generic_nodes` (src/taxonomy/parser.py lines
179-209): pop the queue head, emit `{id, name, parent_id?}`, enqueue
its children recording their parent id.  The metadata branch
(`if metadata_field in current`, with `metadata_field = "comments"`)
never fires on nodes built by `buildtree`, whose dicts only carry the
keys `id`, `name`, `metadata` and `children`; so no emitted node
carries metadata.  The `parents` association list models the Python
dict (ids are unique, so first-match lookup agrees with it). -/
def bfsAux : List (TNode μ) → List (String × String) → List (GNode μ)
  | [], _ => []
  | .mk i n _ cs :: rest, parents =>
    let gn : GNode μ :=
      { id := i, name := n, parent_id := parents.lookup i, metadata := none }
    match cs with
    | none => gn :: bfsAux rest parents
    | some cl =>
      gn :: bfsAux (rest ++ cl) (parents ++ cl.map fun c => (c.id, i))
termination_by q _ => tsizeL q
decreasing_by
  · simp [tsizeL, tsize]
  · have happ : ∀ a b : List (TNode μ), tsizeL (a ++ b) = tsizeL a + tsizeL b := by
      intro a b
      induction a with
      | nil => simp [tsizeL]
      | cons t ts ih => simp [tsizeL, ih]; omega
    simp only [happ, tsizeL, tsize]
    omega

/-- `_to_generic_nodes` on a built tree. -/
def toGenericNodes (forest : List (TNode μ)) : List (GNode μ) :=
  bfsAux forest []

/-- The in-memory record `dump_to_generic_file` writes
(src/taxonomy/parser.py lines 148-176), file I/O aside. -/
def dumpToGeneric (forest : List (TNode μ)) (name version : String) :
    GInput μ :=
  { name := name, version := version, nodes := toGenericNodes forest }

/-! ## Taxonomy navigation (src/taxonomy/registry.py) -/

/-- `Taxonomy._depth_first_traversal_with_parents`
(src/taxonomy/registry.py lines 138-161): post-order depth-first
stream of `(node, stripped parent or none)` pairs; a node's children
are streamed before the node itself. -/
def dfsWP : List (TNode μ) → Option (TNode μ) → List (TNode μ × Option (TNode μ))
  | [], _ => []
  | .mk i n m none :: rest, parent =>
    (TNode.mk i n m none, parent.map removeChildren) :: dfsWP rest parent
  | .mk i n m (some cl) :: rest, parent =>
    dfsWP cl (some (TNode.mk i n m (some cl))) ++
      ((TNode.mk i n m (some cl), parent.map removeChildren) :: dfsWP rest parent)

/-- The scan of `Taxonomy._get_ancestors` (src/taxonomy/registry.py
lines 163-194) over the post-order stream: on a node matching the
current target, yield it stripped (unless it is the queried node
itself), stop at a root, otherwise retarget to the parent's id. -/
def getAncestorsAux :
    List (TNode μ × Option (TNode μ)) → String → String → List (TNode μ)
  | [], _, _ => []
  | (n, p) :: rest, target, original =>
    if n.id = target then
      (if target ≠ original then [removeChildren n] else []) ++
        match p with
        | none => []
        | some pp => getAncestorsAux rest pp.id original
    else getAncestorsAux rest target original

/-- `Taxonomy._get_ancestors`: ancestors of the node with the given
id, nearest first, each stripped of children. -/
def getAncestors (forest : List (TNode μ)) (nodeId : String) : List (TNode μ) :=
  getAncestorsAux (dfsWP forest none) nodeId nodeId

/-- The continuation of the ancestor walk once a subtree has been
fully consumed: stop at a root, otherwise keep scanning the rest of
the stream with the enclosing parent's id as target (proof-side
helper for the stream-walk correspondence). -/
def contWalk (parent : Option (TNode μ))
    (s : List (TNode μ × Option (TNode μ))) (x : String) : List (TNode μ) :=
  match parent with
  | none => []
  | some pp => getAncestorsAux s pp.id x

mutual

/-- Specification-side ancestor chain: pre-order search for the node
with the given id; on success returns its proper ancestors, nearest
ancestor first (unstripped). -/
def ancPath : List (TNode μ) → String → Option (List (TNode μ))
  | [], _ => none
  | t :: rest, x =>
    if t.id = x then some []
    else
      match ancPathSub t x with
      | some l => some (l ++ [t])
      | none => ancPath rest x

def ancPathSub : TNode μ → String → Option (List (TNode μ))
  | .mk _ _ _ none, _ => none
  | .mk _ _ _ (some cl), x => ancPath cl x

end

/-! ## `NormalizedSearcher` (src/search/normalizedsearcher.py) -/

/-- `NormalizedSearcher.lookup` (src/search/normalizedsearcher.py
lines 46-55).  The document set is the children-stripped node list the
searcher was built over.  When several records share the id, the code
keeps only `D[0]` if `D[0]["name"] == "Uncategorized"`; the final
`assert len(D) == 1` failing (an `AssertionError`, i.e. a loud
failure) is modelled by `none`. -/
def lookup (docs : List (TNode μ)) (id : String) : Option (TNode μ) :=
  match docs.filter fun m => m.id = id with
  | [] => none
  | [d] => some d
  | d :: _ :: _ => if d.name = "Uncategorized" then some d else none

/-- Python `round(score, 3)`: round to 3 decimal places.  (Float
`round` resolves exact halves to even; on the rationals of this
embedding the half-way case is immaterial and `round` is used.) -/
def round3 (q : ℚ) : ℚ := round (q * 1000) / 1000

/-- The min-max rescaling of `NormalizedSearcher.__call__`
(src/search/normalizedsearcher.py lines 64-65), applied to the score
batch only when it is nonempty and `max - min > 0`. -/
def rescale (scores : List ℚ) : List ℚ :=
  match scores.maximum, scores.minimum with
  | some mx, some mn =>
    if 0 < mx - mn then scores.map fun s => (s - mn) / (mx - mn) else scores
  | _, _ => scores

/-- `NormalizedSearcher.__call__` (lines 62-69) given the searcher's
result rows: rescale the scores, then build one response per row by
merging the full looked-up record with the rounded score
(`buildResponse`, lines 57-60; the record's own fields win on a key
collision, but taxonomy records have no `score` key, so a response is
a pair of the rounded score and the record).  `none` models the
`AssertionError` a failing `lookup` raises. -/
def nsCall (docs : List (TNode μ)) (sres : List (String × String × ℚ)) :
    Option (List (ℚ × TNode μ)) :=
  ((sres.map fun row => row.1).zip (rescale (sres.map fun row => row.2.2))).mapM
    fun p => (lookup docs p.1).map fun d => (round3 p.2, d)

/-! ## Specification-side definitions for the tree claims -/

mutual

/-- Ids of a tree, preorder. -/
def idsT : TNode μ → List String
  | .mk i _ _ none => [i]
  | .mk i _ _ (some cl) => i :: idsF cl

def idsF : List (TNode μ) → List String
  | [] => []
  | t :: ts => idsT t ++ idsF ts

end

mutual

/-- Well-formedness of a built tree, as `buildtree` guarantees it:
every `children` key present is nonempty, and every node that has
children has a non-empty id (a node with a falsy id can never acquire
children, since its children's `parent_id` would be falsy). -/
def wfT : TNode μ → Bool
  | .mk _ _ _ none => true
  | .mk i _ _ (some cl) => !(i = "") && !cl.isEmpty && wfF cl

def wfF : List (TNode μ) → Bool
  | [] => true
  | t :: ts => wfT t && wfF ts

end

mutual

/-- A tree with every metadata field erased. -/
def stripMetaT : TNode μ → TNode μ
  | .mk i n _ none => .mk i n none none
  | .mk i n _ (some cl) => .mk i n none (some (stripMetaF cl))

def stripMetaF : List (TNode μ) → List (TNode μ)
  | [] => []
  | t :: ts => stripMetaT t :: stripMetaF ts

end

mutual

/-- Build-phase image of a tree: `children` flattened to a plain list
and metadata erased (the flat format produced by `_to_generic_nodes`
never carries the metadata of a built tree over). -/
def toBS : TNode μ → BNode μ
  | .mk i n _ none => .mk i n none []
  | .mk i n _ (some cl) => .mk i n none (toBSF cl)

def toBSF : List (TNode μ) → List (BNode μ)
  | [] => []
  | t :: ts => toBS t :: toBSF ts

end

/-- Effective parent of a flat node descriptor: an absent or empty
(falsy) `parent_id` means top level. -/
def normParent (g : GNode μ) : Option String :=
  match g.parent_id with
  | some s => if s = "" then none else some s
  | none => none

/-- Denotation of a flat node list: the children attached under
parent key `p`, in declaration order, each carrying the children
declared after it.  (Parents precede their children in supported
inputs, so a node's children are found in the list suffix.) -/
def denB (ns : List (GNode μ)) (p : Option String) : List (BNode μ) :=
  match ns with
  | [] => []
  | g :: rest =>
    if normParent g = p then
      BNode.mk g.id g.name g.metadata (denB rest (some g.id)) :: denB rest p
    else denB rest p

/-- Every node's effective parent is declared strictly earlier in the
list (or is one of the `seen` ids): the well-ordering that `buildtree`
requires of its input. -/
def parentsDeclared (seen : List String) : List (GNode μ) → Bool
  | [] => true
  | g :: rest =>
    (match normParent g with
     | some pid => decide (pid ∈ seen)
     | none => true) &&
      parentsDeclared (seen ++ [g.id]) rest

mutual

/-- Ids of a build-phase tree. -/
def bidsB : BNode μ → List String
  | .mk i _ _ cs => i :: bidsF cs

def bidsF : List (BNode μ) → List String
  | [] => []
  | b :: rest => bidsB b ++ bidsF rest

end

/-- Ids occurring strictly below the top level of a forest. -/
def strictInside : List (TNode μ) → List String
  | [] => []
  | .mk _ _ _ none :: rest => strictInside rest
  | .mk _ _ _ (some cl) :: rest => idsF cl ++ strictInside rest

/-- Effective parent assigned by the breadth-first parents map: the
looked-up value, an empty string counting as no parent. -/
def apv (parents : List (String × String)) (i : String) : Option String :=
  match parents.lookup i with
  | some s => if s = "" then none else some s
  | none => none

mutual

/-- No node of the tree carries metadata. -/
def metaFreeT : TNode μ → Bool
  | .mk _ _ m none => m.isNone
  | .mk _ _ m (some cl) => m.isNone && metaFreeF cl

def metaFreeF : List (TNode μ) → Bool
  | [] => true
  | t :: ts => metaFreeT t && metaFreeF ts

end

/-- The example tree of the ancestors claim:
`[{id 1, children [{id 2, children [{id 3}]}, {id 4}]}, {id 5}]`
(names chosen equal to ids). -/
def exTree : List (TNode Unit) :=
  [TNode.mk "1" "1" none
    (some [TNode.mk "2" "2" none (some [TNode.mk "3" "3" none none]),
           TNode.mk "4" "4" none none]),
   TNode.mk "5" "5" none none]

/-! # Theorems -/

/-! ## Stable sorting -/

/-- Stability refinement for `List.mergeSort`: sorting a list that is
already `Pairwise S` with a total transitive comparator `le` yields a
list that is sorted by `le` and, between `le`-equivalent elements,
still ordered by `S` (a stable sort preserves the relative order of
equivalent elements). -/
theorem pairwise_mergeSort_refine {α : Type} {le : α → α → Bool}
    (htrans : ∀ a b c, le a b → le b c → le a c)
    (htotal : ∀ a b, le a b || le b a)
    {S : α → α → Prop} {l : List α} (hl : l.Pairwise S) :
    (l.mergeSort le).Pairwise (fun a b => le a b = true ∧ (le b a = true → S a b)) := by
  rw [← List.mergeSort_enum]
  rw [List.pairwise_map]
  have hsorted : (List.mergeSort l.enum (List.enumLE le)).Pairwise
      (fun x y => List.enumLE le x y = true) :=
    List.sorted_mergeSort (List.enumLE_trans htrans) (List.enumLE_total htotal) _
  have hnodupfst : (l.enum.map Prod.fst).Nodup := by
    rw [List.enum_map_fst]; exact List.nodup_range _
  have hnodup : l.enum.Nodup := hnodupfst.of_map
  have hnodup' : (List.mergeSort l.enum (List.enumLE le)).Nodup :=
    ((List.mergeSort_perm l.enum (List.enumLE le)).nodup_iff).mpr hnodup
  have hboth := hsorted.and hnodup'
  refine hboth.imp_of_mem ?_
  intro a b ha hb hab
  obtain ⟨henum, hne⟩ := hab
  have ha' : a ∈ l.enum := List.mem_mergeSort.mp ha
  have hb' : b ∈ l.enum := List.mem_mergeSort.mp hb
  have hga : l[a.1]? = some a.2 := List.mem_enum_iff_getElem?.mp ha'
  have hgb : l[b.1]? = some b.2 := List.mem_enum_iff_getElem?.mp hb'
  unfold List.enumLE at henum
  by_cases h1 : le a.2 b.2
  · refine ⟨h1, ?_⟩
    intro h2
    simp only [h1, h2, if_true] at henum
    have hle : a.1 ≤ b.1 := by simpa using henum
    have hlt : a.1 < b.1 := by
      rcases Nat.lt_or_ge a.1 b.1 with h | h
      · exact h
      · have heq : a.1 = b.1 := Nat.le_antisymm hle h
        have : a.2 = b.2 := by
          rw [heq] at hga; rw [hga] at hgb; exact (Option.some_inj.mp hgb)
        exact absurd (Prod.ext heq this) hne
    have hlena : a.1 < l.length := (List.getElem?_eq_some_iff.mp hga).1
    have hlenb : b.1 < l.length := (List.getElem?_eq_some_iff.mp hgb).1
    have hS := List.pairwise_iff_getElem.mp hl a.1 b.1 hlena hlenb hlt
    have hva : l[a.1] = a.2 := (List.getElem?_eq_some_iff.mp hga).2
    have hvb : l[b.1] = b.2 := (List.getElem?_eq_some_iff.mp hgb).2
    rwa [hva, hvb] at hS
  · simp only [h1, if_false] at henum
    exact absurd henum (by simp)

theorem leId_trans : ∀ a b c : SDoc, leId a b → leId b c → leId a c := by
  intro a b c hab hbc
  simp only [leId, decide_eq_true_eq] at *
  exact le_trans hab hbc

theorem leId_total : ∀ a b : SDoc, leId a b || leId b a := by
  intro a b
  simp only [leId, Bool.or_eq_true, decide_eq_true_eq]
  exact le_total a.id b.id

theorem leName_trans : ∀ a b c : SDoc, leName a b → leName b c → leName a c := by
  intro a b c hab hbc
  simp only [leName, decide_eq_true_eq] at *
  exact le_trans hab hbc

theorem leName_total : ∀ a b : SDoc, leName a b || leName b a := by
  intro a b
  simp only [leName, Bool.or_eq_true, decide_eq_true_eq]
  exact le_total a.name b.name

theorem leScoreDesc_trans (t : ℚ) :
    ∀ a b c : SDoc, leScoreDesc t a b → leScoreDesc t b c → leScoreDesc t a c := by
  intro a b c hab hbc
  simp only [leScoreDesc, decide_eq_true_eq] at *
  exact le_trans hbc hab

theorem leScoreDesc_total (t : ℚ) :
    ∀ a b : SDoc, leScoreDesc t a b || leScoreDesc t b a := by
  intro a b
  simp only [leScoreDesc, Bool.or_eq_true, decide_eq_true_eq]
  exact le_total (adjScore t b) (adjScore t a)

/-- The composed stable sorts order candidates by score descending,
then name ascending, then id ascending. -/
theorem rankDocs_pairwise (t : ℚ) (docs : List SDoc) :
    (rankDocs t docs).Pairwise (lexAfter t) := by
  have h1 : (docs.mergeSort leId).Pairwise (fun a b => leId a b = true) :=
    List.sorted_mergeSort leId_trans leId_total docs
  have h2 := pairwise_mergeSort_refine leName_trans leName_total h1
  have h3 := pairwise_mergeSort_refine (leScoreDesc_trans t) (leScoreDesc_total t) h2
  refine h3.imp ?_
  intro a b hab
  obtain ⟨hs, hrest⟩ := hab
  simp only [leScoreDesc, decide_eq_true_eq] at hs hrest
  rcases lt_or_eq_of_le hs with hlt | heq
  · exact Or.inl hlt
  · refine Or.inr ⟨heq.symm, ?_⟩
    obtain ⟨hn, hnrest⟩ := hrest heq.ge
    simp only [leName, decide_eq_true_eq] at hn hnrest
    rcases lt_or_eq_of_le hn with hnlt | hneq
    · exact Or.inl hnlt
    · refine Or.inr ⟨hneq, ?_⟩
      have := hnrest hneq.ge
      simpa [leId] using this

/-- The ranked list is a permutation of the index. -/
theorem rankDocs_perm (t : ℚ) (docs : List SDoc) :
    List.Perm (rankDocs t docs) docs :=
  ((List.mergeSort_perm _ _).trans (List.mergeSort_perm _ _)).trans
    (List.mergeSort_perm _ _)

/-- The ranked list is sorted by adjusted score, descending. -/
theorem rankDocs_sorted (t : ℚ) (docs : List SDoc) :
    (rankDocs t docs).Pairwise (fun a b => adjScore t b ≤ adjScore t a) := by
  have h : (rankDocs t docs).Pairwise (fun a b => leScoreDesc t a b = true) :=
    List.sorted_mergeSort (leScoreDesc_trans t) (leScoreDesc_total t) _
  exact h.imp (by intro a b hab; simpa [leScoreDesc] using hab)

/-- The survivors are a sublist of the ranked candidates. -/
theorem searcherKept_sublist (docs : List SDoc) (n : Nat) (maxAll t r : ℚ) :
    List.Sublist (searcherKept docs n maxAll t r) (rankDocs t docs) :=
  ((List.filter_sublist _).trans (List.filter_sublist _)).trans
    (List.take_sublist _ _)

/-! ## C1: result ordering of `Searcher.__call__` -/

/-- C1: every result sequence of `Searcher.__call__` is ordered
highest score first, with equal-score ties broken by name ascending
and remaining ties by id ascending; the order comes from the three
composed stable sorts (ascending by id, then ascending by name, then
descending by score) embedded in `rankDocs`. -/
theorem searcher_result_order (docs : List SDoc) (n : Nat) (t r : ℚ)
    (rows : List (String × String × ℚ))
    (h : searcherCall docs n t r = some rows) :
    rows.Pairwise rowLex := by
  unfold searcherCall at h
  obtain ⟨maxAll, _, hrows⟩ := Option.map_eq_some'.mp h
  rw [← hrows, List.pairwise_map]
  have hp : (searcherKept docs n maxAll t r).Pairwise (lexAfter t) :=
    List.Pairwise.sublist (searcherKept_sublist docs n maxAll t r)
      (rankDocs_pairwise t docs)
  refine hp.imp ?_
  intro a b hab
  simpa [rowLex, lexAfter] using hab

/-- Witness for C1 at a concrete index and query. -/
theorem searcher_result_order_witness :
    ([("30000000", "x", (67 : ℚ)/100)] : List (String × String × ℚ)).Pairwise rowLex := by
  have hadj : adjScore (7/10) ⟨"30000000", "x", 7/10⟩ = 67/100 := by
    norm_num [adjScore, penalty, (by decide : levels "30000000" = 1)]
  refine searcher_result_order [⟨"30000000", "x", 7/10⟩] 20 (7/10) (8/10) _ ?_
  simp [searcherCall, searcherKept, rankDocs, List.filter_cons, hadj]
  norm_num [List.filter_cons, hadj]
  rfl

/-! ## C2: thresholds and truncation of `Searcher.__call__` -/

theorem penalty_nonneg (id : String) : 0 ≤ penalty id := by
  unfold penalty
  positivity

theorem adjScore_neg_of_raw_lt (t : ℚ) (d : SDoc) (h : d.raw < t) :
    adjScore t d < 0 := by
  unfold adjScore
  rw [if_pos h]
  have := penalty_nonneg d.id
  linarith

/-- `scores.max()` is also the maximum score among the truncated
candidates: the ranking is descending by score, so the head of the
truncation realizes the global maximum. -/
theorem trunc_max_eq (docs : List SDoc) (n : Nat) (t maxAll m : ℚ)
    (hmax : (docs.map (adjScore t)).maximum = some maxAll)
    (hm : (((rankDocs t docs).take n).map (adjScore t)).maximum = some m) :
    m = maxAll := by
  obtain ⟨hmem, hub⟩ := List.maximum_eq_coe_iff.mp hm
  obtain ⟨hmemAll, _⟩ := List.maximum_eq_coe_iff.mp hmax
  -- m ≤ maxAll
  obtain ⟨d', hd', hadj'⟩ := List.mem_map.mp hmem
  have hd'rank : d' ∈ rankDocs t docs := List.mem_of_mem_take hd'
  have hd'docs : d' ∈ docs := (rankDocs_perm t docs).mem_iff.mp hd'rank
  have hmle : m ≤ maxAll :=
    List.le_maximum_of_mem (List.mem_map.mpr ⟨d', hd'docs, hadj'⟩) hmax
  -- maxAll ≤ m, via the head of the ranked list
  obtain ⟨dm, hdm, hadjm⟩ := List.mem_map.mp hmemAll
  have hdmrank : dm ∈ rankDocs t docs := (rankDocs_perm t docs).mem_iff.mpr hdm
  obtain ⟨h0, rest, hrank⟩ : ∃ h0 rest, rankDocs t docs = h0 :: rest := by
    cases hr : rankDocs t docs with
    | nil => rw [hr] at hd'rank; cases hd'rank
    | cons h0 rest => exact ⟨h0, rest, rfl⟩
  obtain ⟨k, hn⟩ : ∃ k, n = k + 1 := by
    cases n with
    | zero => rw [List.take_zero] at hd'; cases hd'
    | succ k => exact ⟨k, rfl⟩
  have hhead : h0 ∈ (rankDocs t docs).take n := by
    rw [hrank, hn, List.take_succ_cons]
    exact List.mem_cons_self _ _
  have hsorted := rankDocs_sorted t docs
  rw [hrank] at hsorted
  have hdmle : adjScore t dm ≤ adjScore t h0 := by
    rw [hrank] at hdmrank
    rcases List.mem_cons.mp hdmrank with heq | hmem'
    · rw [heq]
    · exact (List.pairwise_cons.mp hsorted).1 dm hmem'
  have hh0le : adjScore t h0 ≤ m :=
    hub _ (List.mem_map.mpr ⟨h0, hhead, rfl⟩)
  have : maxAll ≤ m := by
    rw [← hadjm]
    exact le_trans hdmle hh0le
  exact le_antisymm hmle this

/-- C2: for every index, query, `maxResults` `n`, `threshold` `t` and
`relativeThreshold` `r`: the results are the truncation of the ranked
candidates to at most `n` entries followed by the two score filters;
no document whose combined score is below `t` survives; every survivor
scores at least `r` times the maximum score among the truncated
candidates; and no survivor has penalty-adjusted score ≤ 0. -/
theorem searcher_threshold_truncation (docs : List SDoc) (n : Nat) (t r : ℚ)
    (rows : List (String × String × ℚ))
    (h : searcherCall docs n t r = some rows) :
    ∃ maxAll, (docs.map (adjScore t)).maximum = some maxAll ∧
      rows = (searcherKept docs n maxAll t r).map
        (fun d => (d.id, d.name, adjScore t d)) ∧
      (∀ d ∈ searcherKept docs n maxAll t r, t ≤ d.raw) ∧
      rows.length ≤ n ∧
      (∀ d ∈ searcherKept docs n maxAll t r, ∀ m,
          (((rankDocs t docs).take n).map (adjScore t)).maximum = some m →
          r * m ≤ adjScore t d) ∧
      (∀ d ∈ searcherKept docs n maxAll t r, 0 < adjScore t d) := by
  unfold searcherCall at h
  obtain ⟨maxAll, hmax, hrows⟩ := Option.map_eq_some'.mp h
  have hmem : ∀ d ∈ searcherKept docs n maxAll t r,
      d ∈ (rankDocs t docs).take n ∧ maxAll * r < adjScore t d ∧
        0 < adjScore t d := by
    intro d hd
    unfold searcherKept at hd
    obtain ⟨hd1, hp2⟩ := List.mem_filter.mp hd
    obtain ⟨hd0, hp1⟩ := List.mem_filter.mp hd1
    exact ⟨hd0, of_decide_eq_true hp1, of_decide_eq_true hp2⟩
  refine ⟨maxAll, hmax, hrows.symm, ?_, ?_, ?_, ?_⟩
  · intro d hd
    by_contra hcon
    push_neg at hcon
    have := adjScore_neg_of_raw_lt t d hcon
    have := (hmem d hd).2.2
    linarith
  · rw [← hrows, List.length_map]
    calc (searcherKept docs n maxAll t r).length
        ≤ ((rankDocs t docs).take n).length :=
          ((List.length_filter_le _ _).trans (List.length_filter_le _ _))
      _ ≤ n := List.length_take_le _ _
  · intro d hd m hm
    have hma : m = maxAll := trunc_max_eq docs n t maxAll m hmax hm
    have := (hmem d hd).2.1
    rw [hma, mul_comm]
    linarith
  · intro d hd
    exact (hmem d hd).2.2

/-- Witness for C2 at a concrete index and query. -/
theorem searcher_threshold_truncation_witness :
    ∃ maxAll,
      (([⟨"30000000", "x", 7/10⟩] : List SDoc).map (adjScore (7/10))).maximum
          = some maxAll ∧
      [("30000000", "x", (67 : ℚ)/100)] =
        (searcherKept [⟨"30000000", "x", 7/10⟩] 20 maxAll (7/10) (8/10)).map
          (fun d => (d.id, d.name, adjScore (7/10) d)) ∧
      (∀ d ∈ searcherKept [⟨"30000000", "x", 7/10⟩] 20 maxAll (7/10) (8/10),
        (7 : ℚ)/10 ≤ d.raw) ∧
      ([("30000000", "x", (67 : ℚ)/100)] : List (String × String × ℚ)).length ≤ 20 ∧
      (∀ d ∈ searcherKept [⟨"30000000", "x", 7/10⟩] 20 maxAll (7/10) (8/10), ∀ m,
          (((rankDocs (7/10) [⟨"30000000", "x", 7/10⟩]).take 20).map
            (adjScore (7/10))).maximum = some m →
          (8 : ℚ)/10 * m ≤ adjScore (7/10) d) ∧
      (∀ d ∈ searcherKept [⟨"30000000", "x", 7/10⟩] 20 maxAll (7/10) (8/10),
        0 < adjScore (7/10) d) := by
  refine searcher_threshold_truncation [⟨"30000000", "x", 7/10⟩] 20 (7/10) (8/10) _ ?_
  have hadj : adjScore (7/10) ⟨"30000000", "x", 7/10⟩ = 67/100 := by
    norm_num [adjScore, penalty, (by decide : levels "30000000" = 1)]
  simp [searcherCall, searcherKept, rankDocs, List.filter_cons, hadj]
  norm_num [List.filter_cons, hadj]
  rfl

/-! ## C10: returned scores are penalty-adjusted -/

/-- C10: every returned score is strictly positive, yet the penalty is
subtracted after thresholding, so a returned score can lie strictly
below the threshold — exactly `threshold - 0.03 * levels(id)` when the
combined score equals the threshold.  The concrete instance uses one
document with id `"30000000"` (one non-zero segment) and combined
score `0.7 = threshold`. -/
theorem searcher_penalized_below_threshold :
    (∀ (docs : List SDoc) (n : Nat) (t r : ℚ) rows,
        searcherCall docs n t r = some rows → ∀ row ∈ rows, 0 < row.2.2) ∧
    (∃ (docs : List SDoc) (rows : List (String × String × ℚ)),
        searcherCall docs 20 (7/10) (8/10) = some rows ∧
        ∃ row ∈ rows, row.2.2 < 7/10 ∧
          row.2.2 = 7/10 - penalty row.1) := by
  constructor
  · intro docs n t r rows h row hrow
    unfold searcherCall at h
    obtain ⟨maxAll, _, hrows⟩ := Option.map_eq_some'.mp h
    rw [← hrows] at hrow
    obtain ⟨d, hd, hmap⟩ := List.mem_map.mp hrow
    unfold searcherKept at hd
    have hp2 := (List.mem_filter.mp hd).2
    have : 0 < adjScore t d := of_decide_eq_true hp2
    rw [← hmap]
    exact this
  · refine ⟨[⟨"30000000", "x", 7/10⟩], [("30000000", "x", (67 : ℚ)/100)], ?_, ?_⟩
    · have hadj : adjScore (7/10) ⟨"30000000", "x", 7/10⟩ = 67/100 := by
        norm_num [adjScore, penalty, (by decide : levels "30000000" = 1)]
      simp [searcherCall, searcherKept, rankDocs, List.filter_cons, hadj]
      norm_num [List.filter_cons, hadj]
      rfl
    · refine ⟨("30000000", "x", (67 : ℚ)/100), List.mem_singleton.mpr rfl, ?_, ?_⟩
      · norm_num
      · norm_num [penalty, (by decide : levels "30000000" = 1)]

/-- Witness for the universally quantified half of C10. -/
theorem searcher_penalized_below_threshold_witness :
    ∀ row ∈ ([("30000000", "x", (67 : ℚ)/100)] : List (String × String × ℚ)),
      0 < row.2.2 := by
  have hadj : adjScore (7/10) ⟨"30000000", "x", 7/10⟩ = 67/100 := by
    norm_num [adjScore, penalty, (by decide : levels "30000000" = 1)]
  refine searcher_penalized_below_threshold.1
    [⟨"30000000", "x", 7/10⟩] 20 (7/10) (8/10) _ ?_
  simp [searcherCall, searcherKept, rankDocs, List.filter_cons, hadj]
  norm_num [List.filter_cons, hadj]
  rfl

/-! ## C9: the `levels` function -/

theorem levelsL_chunks : ∀ l : List Char,
    levelsL l = ((chunks2 l).filter fun seg => decide (seg ≠ ['0', '0'])).length
  | [] => rfl
  | [a] => by
    have h : ([a] : List Char) ≠ ['0', '0'] := by simp
    simp [levelsL, chunks2, h]
  | a :: b :: rest => by
    by_cases h : ([a, b] : List Char) = ['0', '0']
    · simp [levelsL, chunks2, h, levelsL_chunks rest]
    · simp [levelsL, chunks2, h, levelsL_chunks rest]
      omega

theorem levelsL_append_single : ∀ s : List Char, s.length % 2 = 0 → ∀ c : Char,
    levelsL (s ++ [c]) = levelsL s + 1
  | [], _, c => by
    have h : ([c] : List Char) ≠ ['0', '0'] := by simp
    simp [levelsL, h]
  | [a], h, c => by simp at h
  | a :: b :: rest, h, c => by
    have h' : rest.length % 2 = 0 := by
      simp only [List.length_cons] at h
      omega
    simp only [List.cons_append, levelsL, List.append_eq]
    rw [levelsL_append_single rest h' c]
    omega

/-- C9: `levels` consumes the id two characters at a time from the
left, adding 1 for every consumed segment that differs from the exact
string `"00"` (string comparison); for an odd-length id the trailing
single character is its own segment and is always counted
(`levels "0" = 1`), and the penalty `0.03 * levels(id)` inherits the
behaviour. -/
theorem levels_segment_counting :
    (∀ l : List Char,
        levelsL l = ((chunks2 l).filter fun seg => decide (seg ≠ ['0', '0'])).length) ∧
    levels "0" = 1 ∧
    (∀ s : List Char, s.length % 2 = 0 → ∀ c : Char,
        levelsL (s ++ [c]) = levelsL s + 1) ∧
    (∀ s : List Char, s.length % 2 = 0 → ∀ c : Char,
        penalty (String.mk (s ++ [c])) = penalty (String.mk s) + 3 / 100) := by
  refine ⟨levelsL_chunks, by decide, levelsL_append_single, ?_⟩
  intro s h c
  simp only [penalty, levels]
  rw [levelsL_append_single s h c]
  push_cast
  ring

/-- Witness for C9's odd-length clauses. -/
theorem levels_segment_counting_witness :
    levelsL (['1', '2'] ++ ['0']) = levelsL ['1', '2'] + 1 ∧
    penalty (String.mk (['0', '0'] ++ ['0'])) =
      penalty (String.mk ['0', '0']) + 3 / 100 :=
  ⟨levels_segment_counting.2.2.1 ['1', '2'] (by decide) '0',
   levels_segment_counting.2.2.2 ['0', '0'] (by decide) '0'⟩

/-! ## C4: `NormalizedSearcher.lookup` id collisions -/

/-- C4 counterexample: two records share id `"0"`, and one of them —
the second — is named exactly `"Uncategorized"`; the claim says that
record is returned, but `lookup` only inspects the first colliding
record (`D[0]`) and fails the `assert` instead. -/
theorem lookup_second_uncategorized_fails :
    (([TNode.mk (μ := Unit) "0" "X" none none,
       TNode.mk "0" "Uncategorized" none none].filter fun m => m.id = "0") =
      [TNode.mk (μ := Unit) "0" "X" none none,
       TNode.mk "0" "Uncategorized" none none]) ∧
    (TNode.mk (μ := Unit) "0" "Uncategorized" none none).name = "Uncategorized" ∧
    lookup [TNode.mk (μ := Unit) "0" "X" none none,
            TNode.mk "0" "Uncategorized" none none] "0" = none :=
  ⟨rfl, rfl, rfl⟩

/-- C4 amended: with several records sharing the queried id, `lookup`
resolves the collision deterministically exactly when the FIRST
matching record (in document order) is named `"Uncategorized"`,
returning that first record; every other multi-match fails loudly
(`assert len(D) == 1`); a unique match is returned as-is. -/
theorem lookup_collision_first_uncategorized {μ : Type} (docs : List (TNode μ))
    (i : String) (d : TNode μ) (rest : List (TNode μ))
    (hfilter : docs.filter (fun m => m.id = i) = d :: rest) :
    (rest = [] → lookup docs i = some d) ∧
    (rest ≠ [] → d.name = "Uncategorized" → lookup docs i = some d) ∧
    (rest ≠ [] → d.name ≠ "Uncategorized" → lookup docs i = none) := by
  unfold lookup
  rw [hfilter]
  refine ⟨?_, ?_, ?_⟩
  · intro h
    subst h
    rfl
  · intro hne hname
    cases rest with
    | nil => exact absurd rfl hne
    | cons r rs => simp [hname]
  · intro hne hname
    cases rest with
    | nil => exact absurd rfl hne
    | cons r rs => simp [hname]

/-- Witness for the amended C4. -/
theorem lookup_collision_first_uncategorized_witness :
    lookup [TNode.mk (μ := Unit) "0" "Uncategorized" none none,
            TNode.mk "0" "X" none none] "0" =
      some (TNode.mk (μ := Unit) "0" "Uncategorized" none none) :=
  (lookup_collision_first_uncategorized
      [TNode.mk (μ := Unit) "0" "Uncategorized" none none,
       TNode.mk "0" "X" none none] "0"
      (TNode.mk (μ := Unit) "0" "Uncategorized" none none)
      [TNode.mk (μ := Unit) "0" "X" none none] rfl).2.1
    (by simp) rfl

/-! ## C7: `NormalizedSearcher.__call__` rescaling -/

theorem rescale_length (scores : List ℚ) :
    (rescale scores).length = scores.length := by
  unfold rescale
  split
  · split
    · simp
    · rfl
  · rfl

/-- The rescaling is skipped — scores unchanged — when the batch has
at most one score or all scores are equal. -/
theorem rescale_skip (scores : List ℚ)
    (h : scores.length ≤ 1 ∨ ∀ x ∈ scores, ∀ y ∈ scores, x = y) :
    rescale scores = scores := by
  unfold rescale
  split
  case h_2 => rfl
  case h_1 mx mn hmx hmn =>
    rw [if_neg]
    intro hlt
    have hmxmem : mx ∈ scores := List.maximum_mem hmx
    have hmnmem : mn ∈ scores := List.minimum_mem hmn
    rcases h with hlen | hall
    · cases scores with
      | nil => cases hmxmem
      | cons a rest =>
        cases rest with
        | nil =>
          have h1 : mx = a := List.mem_singleton.mp hmxmem
          have h2 : mn = a := List.mem_singleton.mp hmnmem
          rw [h1, h2] at hlt
          simp at hlt
        | cons b rest' => simp at hlen
    · have : mx = mn := hall mx hmxmem mn hmnmem
      rw [this] at hlt
      simp at hlt

/-- When the rescaling applies, every rescaled score lies in [0, 1]. -/
theorem rescale_bounds (scores : List ℚ) (mx mn : ℚ)
    (hmx : scores.maximum = some mx) (hmn : scores.minimum = some mn)
    (hlt : 0 < mx - mn) :
    ∀ s ∈ rescale scores, 0 ≤ s ∧ s ≤ 1 := by
  intro s hs
  unfold rescale at hs
  rw [hmx, hmn] at hs
  simp only at hs
  rw [if_pos hlt] at hs
  obtain ⟨x, hx, hxs⟩ := List.mem_map.mp hs
  have h1 : mn ≤ x := List.minimum_le_of_mem hx hmn
  have h2 : x ≤ mx := List.le_maximum_of_mem hx hmx
  constructor
  · rw [← hxs]
    apply div_nonneg <;> linarith
  · rw [← hxs]
    rw [div_le_one hlt]
    linarith

/-- Elementwise description of a successful `Option`-valued `mapM`. -/
theorem mapM_option_get {α β : Type} (f : α → Option β) :
    ∀ (l : List α) (res : List β), l.mapM f = some res →
      res.length = l.length ∧
      ∀ k (hk : k < l.length) (hk' : k < res.length),
        f (l.get ⟨k, hk⟩) = some (res.get ⟨k, hk'⟩)
  | [], res, h => by
    simp only [List.mapM_nil, pure, Option.some_inj] at h
    subst h
    exact ⟨rfl, fun k hk => by cases hk⟩
  | a :: as, res, h => by
    rw [List.mapM_cons] at h
    cases hfa : f a with
    | none => rw [hfa] at h; cases h
    | some b =>
      rw [hfa] at h
      simp only [Option.bind_eq_bind, Option.some_bind] at h
      cases hrest : as.mapM f with
      | none => rw [hrest] at h; cases h
      | some bs =>
        rw [hrest] at h
        simp only [Option.bind_eq_bind, Option.some_bind, pure,
          Option.some_inj] at h
        subst h
        obtain ⟨hlen, hget⟩ := mapM_option_get f as bs hrest
        refine ⟨by simp [hlen], ?_⟩
        intro k hk hk'
        cases k with
        | zero => simpa using hfa
        | succ k' =>
          simp only [List.get_cons_succ]
          exact hget k' (Nat.lt_of_succ_lt_succ hk) (Nat.lt_of_succ_lt_succ hk')

/-- C7: `NormalizedSearcher.__call__` min-max rescales the score batch
into [0,1] (skipped when the batch has 0-1 entries or all scores are
equal), rounds every returned score to 3 decimals, and pairs it with
the full looked-up record. -/
theorem normalized_search_rescales {μ : Type} :
    (∀ scores : List ℚ,
        scores.length ≤ 1 ∨ (∀ x ∈ scores, ∀ y ∈ scores, x = y) →
        rescale scores = scores) ∧
    (∀ (scores : List ℚ) mx mn, scores.maximum = some mx →
        scores.minimum = some mn → 0 < mx - mn →
        ∀ s ∈ rescale scores, 0 ≤ s ∧ s ≤ 1) ∧
    (∀ (docs : List (TNode μ)) (sres : List (String × String × ℚ))
        (res : List (ℚ × TNode μ)), nsCall docs sres = some res →
        res.length = sres.length ∧
        ∀ k (hk : k < sres.length) (hk' : k < res.length)
          (hk'' : k < (rescale (sres.map fun row => row.2.2)).length),
          ∃ d, lookup docs (sres.get ⟨k, hk⟩).1 = some d ∧
            res.get ⟨k, hk'⟩ =
              (round3 ((rescale (sres.map fun row => row.2.2)).get ⟨k, hk''⟩), d)) := by
  refine ⟨rescale_skip, rescale_bounds, ?_⟩
  intro docs sres res h
  unfold nsCall at h
  obtain ⟨hlen, hget⟩ := mapM_option_get _ _ _ h
  have hziplen : ((sres.map fun row => row.1).zip
      (rescale (sres.map fun row => row.2.2))).length = sres.length := by
    simp [List.length_zip, rescale_length]
  constructor
  · rw [hlen, hziplen]
  · intro k hk hk' hk''
    have hkz : k < ((sres.map fun row => row.1).zip
        (rescale (sres.map fun row => row.2.2))).length := by
      rw [hziplen]; exact hk
    have := hget k hkz hk'
    rw [List.get_zip] at this
    cases hl : lookup docs ((sres.map fun row => row.1).get
        ⟨k, by simpa [List.length_zip, rescale_length] using hkz⟩) with
    | none =>
      rw [hl] at this
      cases this
    | some d =>
      rw [hl] at this
      simp only [Option.map_some', Option.some_inj] at this
      refine ⟨d, ?_, ?_⟩
      · rw [← hl]
        congr 1
        simp [List.get_map]
      · rw [← this]

/-! ## C5 and C8: `buildtree` error behaviour -/

/-- A successful `_append` extends the id registry by the item's id. -/
theorem appendStep_ok_of {μ : Type} (st : List (BNode μ) × List String)
    (x : GNode μ) (hid : x.id ∉ st.2)
    (hpar : ∀ pid, normParent x = some pid → pid ∈ st.2) :
    ∃ forest, appendStep st x = .ok (forest, st.2 ++ [x.id]) := by
  unfold appendStep
  rw [if_neg hid]
  cases hp : x.parent_id with
  | none => exact ⟨st.1 ++ [⟨x.id, x.name, x.metadata, []⟩], rfl⟩
  | some pid =>
    by_cases he : pid = ""
    · subst he
      simp
    · have : pid ∈ st.2 := hpar pid (by simp [normParent, hp, he])
      simp [he, this]

/-- With all parents declared, a duplicate id anywhere in the list
makes the fold fail with the duplicate-id error. -/
theorem foldl_duplicate {μ : Type} :
    ∀ (ns : List (GNode μ)) (st : List (BNode μ) × List String),
      st.2.Nodup → parentsDeclared st.2 ns = true →
      ¬ (st.2 ++ ns.map GNode.id).Nodup →
      ∃ d, ns.foldlM appendStep st = .error (.duplicateId d)
  | [], st, hnd, _, hdup => absurd (by simpa using hnd) hdup
  | x :: rest, st, hnd, hpd, hdup => by
    unfold parentsDeclared at hpd
    rw [Bool.and_eq_true] at hpd
    obtain ⟨hhead, htail⟩ := hpd
    by_cases hx : x.id ∈ st.2
    · refine ⟨x.id, ?_⟩
      rw [List.foldlM_cons]
      have hstep : appendStep st x = .error (.duplicateId x.id) := by
        unfold appendStep
        rw [if_pos hx]
      rw [hstep]
      rfl
    · have hpar : ∀ pid, normParent x = some pid → pid ∈ st.2 := by
        intro pid hpid
        rw [hpid] at hhead
        simpa using hhead
      obtain ⟨forest, hstep⟩ := appendStep_ok_of st x hx hpar
      have hnd' : (st.2 ++ [x.id]).Nodup := by
        rw [List.nodup_append]
        exact ⟨hnd, List.nodup_singleton _, by simpa [List.disjoint_singleton] using hx⟩
      have hdup' : ¬ ((st.2 ++ [x.id]) ++ rest.map GNode.id).Nodup := by
        intro hc
        exact hdup (by simpa using hc)
      obtain ⟨d, hres⟩ := foldl_duplicate rest (forest, st.2 ++ [x.id]) hnd' htail hdup'
      refine ⟨d, ?_⟩
      rw [List.foldlM_cons, hstep]
      exact hres

/-- With distinct ids, an undeclared non-empty parent reference makes
the fold fail with the unknown-parent error. -/
theorem foldl_unknown_parent {μ : Type} :
    ∀ (ns : List (GNode μ)) (st : List (BNode μ) × List String),
      (st.2 ++ ns.map GNode.id).Nodup →
      parentsDeclared st.2 ns = false →
      ∃ p, ns.foldlM appendStep st = .error (.unknownParent p)
  | [], st, _, hpd => by simp [parentsDeclared] at hpd
  | x :: rest, st, hnd, hpd => by
    have hx : x.id ∉ st.2 := by
      intro hc
      rw [List.nodup_append] at hnd
      exact hnd.2.2 hc (by simp)
    unfold parentsDeclared at hpd
    by_cases hhead : (match normParent x with
        | some pid => decide (pid ∈ st.2)
        | none => true) = true
    · -- the head node is fine; the violation sits further down the list
      rw [hhead, Bool.true_and] at hpd
      have hpar : ∀ pid, normParent x = some pid → pid ∈ st.2 := by
        intro pid hpid
        rw [hpid] at hhead
        simpa using hhead
      obtain ⟨forest, hstep⟩ := appendStep_ok_of st x hx hpar
      have hnd' : ((st.2 ++ [x.id]) ++ rest.map GNode.id).Nodup := by
        simpa using hnd
      obtain ⟨p, hres⟩ :=
        foldl_unknown_parent rest (forest, st.2 ++ [x.id]) hnd' hpd
      refine ⟨p, ?_⟩
      rw [List.foldlM_cons, hstep]
      exact hres
    · -- the head node itself carries the undeclared parent
      cases hp : normParent x with
      | none => rw [hp] at hhead; simp at hhead
      | some pid =>
        rw [hp] at hhead
        have hpid : pid ∉ st.2 := by simpa using hhead
        refine ⟨pid, ?_⟩
        rw [List.foldlM_cons]
        have hstep : appendStep st x = .error (.unknownParent pid) := by
          unfold appendStep
          rw [if_neg hx]
          unfold normParent at hp
          cases hpp : x.parent_id with
          | none => rw [hpp] at hp; cases hp
          | some s =>
            rw [hpp] at hp
            by_cases hs : s = ""
            · simp [hs] at hp
            · simp only [hs, if_false] at hp
              obtain rfl : s = pid := Option.some_inj.mp hp
              simp [hs, hpid]
        rw [hstep]
        rfl

/-- C5 counterexample: the list
`[{id 1}, {id x, parent zz}, {id 1}]` contains two nodes sharing id
`"1"`, yet `buildtree` fails with the unknown-parent error for `"zz"`
(hit at the second node, before the duplicate is reached), not with
the duplicate-id error. -/
theorem buildtree_duplicate_counterexample :
    buildtree (μ := Unit)
        ⟨"t", "v", [⟨"1", "a", none, none⟩, ⟨"x", "b", some "zz", none⟩,
                    ⟨"1", "c", none, none⟩]⟩
      = .error (.unknownParent "zz") ∧
    ¬ (["1", "x", "1"] : List String).Nodup := by
  exact ⟨rfl, by decide⟩

/-- C5 amended: the first violation in list order determines the
error.  Whenever two nodes share an id and every node's non-empty
parent reference is declared earlier in the list, `buildtree` fails
with the duplicate-id error, wherever the duplicate sits; whenever
some node carries a non-empty `parent_id` not declared earlier and the
ids are distinct, `buildtree` fails with the unknown-parent error
(forward references are rejected, not reordered). -/
theorem buildtree_error_classification {μ : Type} :
    (∀ (ns : List (GNode μ)) (name version : String),
        parentsDeclared [] ns = true → ¬ (ns.map GNode.id).Nodup →
        ∃ d, buildtree ⟨name, version, ns⟩ = .error (.duplicateId d)) ∧
    (∀ (ns : List (GNode μ)) (name version : String),
        (ns.map GNode.id).Nodup → parentsDeclared [] ns = false →
        ∃ p, buildtree ⟨name, version, ns⟩ = .error (.unknownParent p)) := by
  constructor
  · intro ns name version hpd hdup
    obtain ⟨d, hfold⟩ := foldl_duplicate ns ([], []) List.nodup_nil hpd
      (by simpa using hdup)
    refine ⟨d, ?_⟩
    unfold buildtree
    rw [hfold]
    rfl
  · intro ns name version hnd hpd
    obtain ⟨p, hfold⟩ := foldl_unknown_parent ns ([], []) (by simpa using hnd) hpd
    refine ⟨p, ?_⟩
    unfold buildtree
    rw [hfold]
    rfl

/-- Witness for the amended C5. -/
theorem buildtree_error_classification_witness :
    (∃ d, buildtree (μ := Unit)
        ⟨"t", "v", [⟨"1", "a", none, none⟩, ⟨"2", "b", some "1", none⟩,
                    ⟨"1", "c", none, none⟩]⟩ = .error (.duplicateId d)) ∧
    (∃ p, buildtree (μ := Unit)
        ⟨"t", "v", [⟨"1", "a", none, none⟩, ⟨"2", "b", some "9", none⟩]⟩
          = .error (.unknownParent p)) :=
  ⟨(buildtree_error_classification (μ := Unit)).1
      [⟨"1", "a", none, none⟩, ⟨"2", "b", some "1", none⟩, ⟨"1", "c", none, none⟩]
      "t" "v" (by decide) (by decide),
   (buildtree_error_classification (μ := Unit)).2
      [⟨"1", "a", none, none⟩, ⟨"2", "b", some "9", none⟩]
      "t" "v" (by decide) (by decide)⟩

/-- C8: the duplicate-id check of `_append` precedes the parent
lookup, so an item whose id is already registered and whose non-empty
parent is also unknown fails with the duplicate-id error, not the
unknown-parent error — in `_append` and hence in `buildtree`. -/
theorem append_duplicate_checked_first {μ : Type} :
    (∀ (st : List (BNode μ) × List String) (x : GNode μ) (pid : String),
        x.id ∈ st.2 → x.parent_id = some pid → pid ≠ "" → pid ∉ st.2 →
        appendStep st x = .error (.duplicateId x.id)) ∧
    buildtree (μ := Unit)
        ⟨"t", "v", [⟨"1", "a", none, none⟩, ⟨"1", "b", some "zz", none⟩]⟩
      = .error (.duplicateId "1") := by
  constructor
  · intro st x pid hx _ _ _
    unfold appendStep
    rw [if_pos hx]
  · rfl

/-- Witness for C8. -/
theorem append_duplicate_checked_first_witness :
    appendStep (μ := Unit) ([], ["1"]) ⟨"1", "b", some "zz", none⟩
      = .error (.duplicateId "1") :=
  (append_duplicate_checked_first (μ := Unit)).1 ([], ["1"])
    ⟨"1", "b", some "zz", none⟩ "zz" (by decide) rfl (by decide) (by decide)

/-! ## C6: ancestors via the post-order stream -/

theorem removeChildren_id {μ : Type} (t : TNode μ) :
    (removeChildren t).id = t.id := by
  cases t
  rfl

/-- Entries of the stream walk are skipped while their node id does
not match the current target. -/
theorem getAncestorsAux_skip {μ : Type} :
    ∀ (s1 s2 : List (TNode μ × Option (TNode μ))) (target orig : String),
      (∀ e ∈ s1, e.1.id ≠ target) →
      getAncestorsAux (s1 ++ s2) target orig = getAncestorsAux s2 target orig
  | [], _, _, _, _ => rfl
  | (n, p) :: s1, s2, target, orig, h => by
    have hn : n.id ≠ target := h (n, p) (List.mem_cons_self _ _)
    rw [List.cons_append]
    have hrec := getAncestorsAux_skip s1 s2 target orig
      fun e he => h e (List.mem_cons_of_mem _ he)
    conv_lhs => simp only [getAncestorsAux]
    rw [if_neg hn]
    exact hrec

/-- Every node of the post-order stream is a node of the forest. -/
theorem dfsWP_node_ids {μ : Type} :
    ∀ (cl : List (TNode μ)) (parent : Option (TNode μ))
      (e : TNode μ × Option (TNode μ)),
      e ∈ dfsWP cl parent → e.1.id ∈ idsF cl
  | [], _, e, h => by simp [dfsWP] at h
  | .mk i n m none :: rest, parent, e, h => by
    simp only [dfsWP, List.mem_cons] at h
    rcases h with h | h
    · subst h
      simp [TNode.id, idsF, idsT]
    · have := dfsWP_node_ids rest parent e h
      simp only [idsF, idsT, List.cons_append, List.mem_cons, List.nil_append]
      exact Or.inr (by simpa using this)
  | .mk i n m (some cl') :: rest, parent, e, h => by
    simp only [dfsWP, List.mem_append, List.mem_cons] at h
    rcases h with h | h | h
    · have := dfsWP_node_ids cl' (some (.mk i n m (some cl'))) e h
      simp only [idsF, idsT, List.cons_append, List.mem_cons, List.mem_append]
      exact Or.inr (Or.inl this)
    · subst h
      simp [TNode.id, idsF, idsT]
    · have := dfsWP_node_ids rest parent e h
      simp only [idsF, idsT, List.cons_append, List.mem_cons, List.mem_append]
      exact Or.inr (Or.inr this)

/-- A node id present in the forest is found by the ancestor search. -/
theorem ancPath_isSome_of_mem {μ : Type} :
    ∀ (cl : List (TNode μ)) (x : String),
      x ∈ idsF cl → ∃ l, ancPath cl x = some l
  | [], x, h => by simp [idsF] at h
  | .mk i n m c :: rest, x, h => by
    by_cases hix : i = x
    · refine ⟨[], ?_⟩
      unfold ancPath
      rw [if_pos (by simpa [TNode.id] using hix)]
    · have hx : x ∈ (match c with
          | none => ([] : List String)
          | some cl' => idsF cl') ∨ x ∈ idsF rest := by
        cases c with
        | none =>
          simp only [idsF, idsT] at h
          rcases List.mem_cons.mp (by simpa using h) with h' | h'
          · exact absurd h'.symm hix
          · exact Or.inr h'
        | some cl' =>
          simp only [idsF, idsT, List.cons_append, List.mem_cons,
            List.mem_append] at h
          rcases h with h' | h' | h'
          · exact absurd h'.symm hix
          · exact Or.inl h'
          · exact Or.inr h'
      unfold ancPath
      rw [if_neg (by simpa [TNode.id] using hix)]
      cases c with
      | none =>
        simp only at hx
        rcases hx with h' | h'
        · cases h'
        · obtain ⟨l, hl⟩ := ancPath_isSome_of_mem rest x h'
          exact ⟨l, by simp [ancPathSub, hl]⟩
      | some cl' =>
        rcases hx with h' | h'
        · obtain ⟨l', hl'⟩ := ancPath_isSome_of_mem cl' x h'
          exact ⟨l' ++ [.mk i n m (some cl')], by simp [ancPathSub, hl']⟩
        · cases hsub : ancPath cl' x with
          | some l' => exact ⟨l' ++ [.mk i n m (some cl')], by simp [ancPathSub, hsub]⟩
          | none =>
            obtain ⟨l, hl⟩ := ancPath_isSome_of_mem rest x h'
            exact ⟨l, by simp [ancPathSub, hsub, hl]⟩

/-- With distinct ids, no proper ancestor of the queried node carries
the queried id. -/
theorem ancPath_ids_ne {μ : Type} :
    ∀ (cl : List (TNode μ)) (x : String) (l : List (TNode μ)),
      ancPath cl x = some l → (idsF cl).Nodup →
      ∀ a ∈ l, a.id ≠ x
  | [], x, l, hap, _, a, ha => by simp [ancPath] at hap
  | .mk i n m c :: rest, x, l, hap, hnd, a, ha => by
    unfold ancPath at hap
    by_cases hix : (TNode.mk i n m c).id = x
    · rw [if_pos hix] at hap
      obtain rfl : ([] : List (TNode μ)) = l := Option.some_inj.mp hap
      cases ha
    · rw [if_neg hix] at hap
      cases c with
      | none =>
        simp only [ancPathSub] at hap
        refine ancPath_ids_ne rest x l hap ?_ a ha
        simp only [idsF, idsT, List.nil_append, List.cons_append] at hnd
        exact (List.nodup_cons.mp hnd).2
      | some cl' =>
        simp only [ancPathSub] at hap
        have hnd' : ((i :: idsF cl') ++ idsF rest).Nodup := by
          simpa [idsF, idsT] using hnd
        rw [List.nodup_append] at hnd'
        cases hsub : ancPath cl' x with
        | some l' =>
          rw [hsub] at hap
          obtain rfl : l' ++ [TNode.mk i n m (some cl')] = l :=
            Option.some_inj.mp hap
          rcases List.mem_append.mp ha with ha' | ha'
          · exact ancPath_ids_ne cl' x l' hsub
              (List.nodup_cons.mp hnd'.1).2 a ha'
          · obtain rfl : a = TNode.mk i n m (some cl') :=
              List.mem_singleton.mp ha'
            exact hix
        | none =>
          rw [hsub] at hap
          exact ancPath_ids_ne rest x l hap hnd'.2.1 a ha

theorem idsF_cons {μ : Type} (t : TNode μ) (rest : List (TNode μ)) :
    idsF (t :: rest) = idsT t ++ idsF rest := rfl

theorem idsT_none {μ : Type} (i nm : String) (md : Option μ) :
    idsT (.mk i nm md none) = [i] := rfl

theorem idsT_some {μ : Type} (i nm : String) (md : Option μ)
    (cl : List (TNode μ)) : idsT (.mk i nm md (some cl)) = i :: idsF cl := rfl

/-- Walking the post-order stream of a forest with the queried id as
target yields the stripped ancestor chain (nearest ancestor first) and
then resumes in the continuation stream with the enclosing parent as
target. -/
theorem getAncestorsAux_dfsWP {μ : Type} :
    ∀ (cl : List (TNode μ)) (parent : Option (TNode μ))
      (s : List (TNode μ × Option (TNode μ))) (x : String) (l : List (TNode μ)),
      (idsF cl).Nodup →
      (∀ pp, parent = some pp → pp.id ∉ idsF cl) →
      ancPath cl x = some l →
      (∀ a ∈ l, a.id ≠ x) →
      getAncestorsAux (dfsWP cl parent ++ s) x x =
        l.map removeChildren ++ contWalk parent s x
  | [], _, _, _, _, _, _, hap, _ => by simp [ancPath] at hap
  | .mk i nm md none :: rest, parent, s, x, l, hnd, hpar, hap, hl => by
    have hndr : (idsF rest).Nodup := by
      rw [idsF_cons, idsT_none, List.singleton_append] at hnd
      exact (List.nodup_cons.mp hnd).2
    have hparr : ∀ pp, parent = some pp → pp.id ∉ idsF rest := by
      intro pp hpp hc
      exact hpar pp hpp (by
        rw [idsF_cons, idsT_none, List.singleton_append]
        exact List.mem_cons_of_mem _ hc)
    simp only [dfsWP, List.cons_append]
    by_cases hix : i = x
    · -- the head is the queried node itself: no ancestor is emitted
      have hl0 : l = [] := by
        unfold ancPath at hap
        rw [if_pos (show (TNode.mk i nm md none).id = x from hix)] at hap
        exact (Option.some_inj.mp hap).symm
      subst hl0
      conv_lhs => simp only [getAncestorsAux]
      rw [if_pos (show (TNode.mk i nm md none).id = x from hix)]
      cases parent with
      | none => simp [contWalk]
      | some pp =>
        simp only [Option.map_some']
        have hskip : getAncestorsAux (dfsWP rest (some pp) ++ s) pp.id x =
            getAncestorsAux s pp.id x :=
          getAncestorsAux_skip _ _ _ _ (fun e he hc => hparr pp rfl (by
            rw [← hc]; exact dfsWP_node_ids rest (some pp) e he))
        rw [removeChildren_id, hskip]
        simp [contWalk]
    · -- head id differs: the search continues in the tail
      have hap' : ancPath rest x = some l := by
        unfold ancPath at hap
        rw [if_neg (show ¬ (TNode.mk i nm md none).id = x from hix)] at hap
        simpa [ancPathSub] using hap
      conv_lhs => simp only [getAncestorsAux]
      rw [if_neg (show ¬ (TNode.mk i nm md none).id = x from hix)]
      exact getAncestorsAux_dfsWP rest parent s x l hndr hparr hap' hl
  | .mk i nm md (some cl') :: rest, parent, s, x, l, hnd, hpar, hap, hl => by
    have hnd' : ((i :: idsF cl') ++ idsF rest).Nodup := by
      rw [idsF_cons, idsT_some] at hnd
      exact hnd
    rw [List.nodup_append] at hnd'
    have hicl : i ∉ idsF cl' := (List.nodup_cons.mp hnd'.1).1
    have hndc : (idsF cl').Nodup := (List.nodup_cons.mp hnd'.1).2
    have hndr : (idsF rest).Nodup := hnd'.2.1
    have hparr : ∀ pp, parent = some pp → pp.id ∉ idsF rest := by
      intro pp hpp hc
      exact hpar pp hpp (by
        rw [idsF_cons, idsT_some]
        exact List.mem_append_right _ hc)
    simp only [dfsWP, List.cons_append, List.append_assoc]
    by_cases hix : i = x
    · -- the head is the queried node; its subtree stream never matches
      have hl0 : l = [] := by
        unfold ancPath at hap
        rw [if_pos (show (TNode.mk i nm md (some cl')).id = x from hix)] at hap
        exact (Option.some_inj.mp hap).symm
      subst hl0
      have hskipc : getAncestorsAux
          (dfsWP cl' (some (.mk i nm md (some cl'))) ++
            ((.mk i nm md (some cl'), parent.map removeChildren) ::
              (dfsWP rest parent ++ s))) x x =
          getAncestorsAux
            ((.mk i nm md (some cl'), parent.map removeChildren) ::
              (dfsWP rest parent ++ s)) x x :=
        getAncestorsAux_skip _ _ _ _ (fun e he hc => hicl (by
          rw [hix, ← hc]
          exact dfsWP_node_ids cl' _ e he))
      rw [hskipc]
      conv_lhs => simp only [getAncestorsAux]
      rw [if_pos (show (TNode.mk i nm md (some cl')).id = x from hix)]
      cases parent with
      | none => simp [contWalk]
      | some pp =>
        simp only [Option.map_some']
        have hskip : getAncestorsAux (dfsWP rest (some pp) ++ s) pp.id x =
            getAncestorsAux s pp.id x :=
          getAncestorsAux_skip _ _ _ _ (fun e he hc => hparr pp rfl (by
            rw [← hc]; exact dfsWP_node_ids rest (some pp) e he))
        rw [removeChildren_id, hskip]
        simp [contWalk]
    · unfold ancPath at hap
      rw [if_neg (show ¬ (TNode.mk i nm md (some cl')).id = x from hix)] at hap
      simp only [ancPathSub] at hap
      cases hsub : ancPath cl' x with
      | none =>
        -- the queried node is not in this subtree: skip it entirely
        rw [hsub] at hap
        have hxcl : x ∉ idsF cl' := by
          intro hc
          obtain ⟨l', hl'⟩ := ancPath_isSome_of_mem cl' x hc
          rw [hl'] at hsub
          cases hsub
        have hskipc : getAncestorsAux
            (dfsWP cl' (some (.mk i nm md (some cl'))) ++
              ((.mk i nm md (some cl'), parent.map removeChildren) ::
                (dfsWP rest parent ++ s))) x x =
            getAncestorsAux
              ((.mk i nm md (some cl'), parent.map removeChildren) ::
                (dfsWP rest parent ++ s)) x x :=
          getAncestorsAux_skip _ _ _ _ (fun e he hc => hxcl (by
            rw [← hc]
            exact dfsWP_node_ids cl' _ e he))
        rw [hskipc]
        conv_lhs => simp only [getAncestorsAux]
        rw [if_neg (show ¬ (TNode.mk i nm md (some cl')).id = x from hix)]
        exact getAncestorsAux_dfsWP rest parent s x l hndr hparr hap hl
      | some l' =>
        -- the queried node sits in this subtree: emit its inner
        -- ancestors, then this node, then climb into the continuation
        rw [hsub] at hap
        obtain rfl : l' ++ [TNode.mk i nm md (some cl')] = l :=
          Option.some_inj.mp hap
        have hl' : ∀ a ∈ l', a.id ≠ x :=
          fun a ha => hl a (List.mem_append_left _ ha)
        have hIH := getAncestorsAux_dfsWP cl' (some (.mk i nm md (some cl')))
          ((.mk i nm md (some cl'), parent.map removeChildren) ::
            (dfsWP rest parent ++ s)) x l' hndc
          (by
            intro pp hpp
            obtain rfl : TNode.mk i nm md (some cl') = pp := Option.some_inj.mp hpp
            simpa [TNode.id] using hicl)
          hsub hl'
        rw [hIH]
        have hstep : contWalk (some (.mk i nm md (some cl')))
            ((.mk i nm md (some cl'), parent.map removeChildren) ::
              (dfsWP rest parent ++ s)) x =
            removeChildren (.mk i nm md (some cl')) :: contWalk parent s x := by
          unfold contWalk
          conv_lhs => simp only [getAncestorsAux, if_true]
          rw [if_pos (show (TNode.mk i nm md (some cl')).id ≠ x from hix)]
          cases parent with
          | none => simp
          | some pp =>
            simp only [Option.map_some']
            have hskip : getAncestorsAux (dfsWP rest (some pp) ++ s) pp.id x =
                getAncestorsAux s pp.id x :=
              getAncestorsAux_skip _ _ _ _ (fun e he hc => hparr pp rfl (by
                rw [← hc]; exact dfsWP_node_ids rest (some pp) e he))
            rw [removeChildren_id, hskip]
            simp
        rw [hstep]
        simp [List.map_append]


/-- C6: `_get_ancestors` returns the queried node's ancestors from
nearest ancestor to root, each stripped of children, walking the
single post-order stream that pairs every node with its stripped
direct parent; in particular for the example tree, the ancestors of
`"3"` are `[{id 2}, {id 1}]` and the ancestors of the root `"1"` are
`[]`, and the post-order stream is the documented one. -/
theorem ancestors_nearest_first {μ : Type} :
    (∀ (forest : List (TNode μ)) (x : String) (l : List (TNode μ)),
        (idsF forest).Nodup → ancPath forest x = some l →
        getAncestors forest x = l.map removeChildren) ∧
    (∀ (forest : List (TNode μ)) (x : String),
        x ∉ idsF forest → getAncestors forest x = []) ∧
    getAncestors exTree "3" =
      [TNode.mk "2" "2" none none, TNode.mk "1" "1" none none] ∧
    getAncestors exTree "1" = [] ∧
    dfsWP exTree none =
      [(TNode.mk "3" "3" none none, some (TNode.mk "2" "2" none none)),
       (TNode.mk "2" "2" none (some [TNode.mk "3" "3" none none]),
         some (TNode.mk "1" "1" none none)),
       (TNode.mk "4" "4" none none, some (TNode.mk "1" "1" none none)),
       (TNode.mk "1" "1" none
          (some [TNode.mk "2" "2" none (some [TNode.mk "3" "3" none none]),
                 TNode.mk "4" "4" none none]), none),
       (TNode.mk "5" "5" none none, none)] := by
  refine ⟨?_, ?_,
    by simp [getAncestors, exTree, dfsWP, getAncestorsAux, removeChildren, TNode.id],
    by simp [getAncestors, exTree, dfsWP, getAncestorsAux, removeChildren, TNode.id],
    by simp [exTree, dfsWP, removeChildren]⟩
  · intro forest x l hnd hap
    have hml := getAncestorsAux_dfsWP forest none [] x l hnd
      (by intro pp h; cases h) hap (ancPath_ids_ne forest x l hap hnd)
    unfold getAncestors
    rw [← List.append_nil (dfsWP forest none), hml]
    simp [contWalk]
  · intro forest x hx
    unfold getAncestors
    rw [← List.append_nil (dfsWP forest none),
      getAncestorsAux_skip _ _ _ _ (fun e he hc => hx (by
        rw [← hc]; exact dfsWP_node_ids forest none e he))]
    rfl

/-- Witness for C6's universally quantified clauses. -/
theorem ancestors_nearest_first_witness :
    getAncestors exTree "3" =
      ([TNode.mk "2" "2" none (some [TNode.mk "3" "3" none none]),
        TNode.mk "1" "1" none
          (some [TNode.mk "2" "2" none (some [TNode.mk "3" "3" none none]),
                 TNode.mk "4" "4" none none])].map removeChildren) ∧
    getAncestors exTree "9" = [] :=
  ⟨(ancestors_nearest_first (μ := Unit)).1 exTree "3" _ (by decide) rfl,
   (ancestors_nearest_first (μ := Unit)).2.1 exTree "9" (by decide)⟩

/-! ## C3: round-trip through the flat node-list format

The proof connects three descriptions of the same tree: the original
`TNode` forest, its breadth-first flattening (`toGenericNodes`), and
the rebuild of that flat list (`buildtree`).  `denB` is the pivot: it
gives the forest a flat list denotes, and is related on one side to
the fold of `_append` steps and on the other side to the
breadth-first emission. -/

theorem denB_ids_subset {μ : Type} :
    ∀ (ns : List (GNode μ)) (p : Option String) (i : String),
      i ∈ bidsF (denB ns p) → i ∈ ns.map GNode.id
  | [], p, i, h => by simp [denB, bidsF] at h
  | g :: rest, p, i, h => by
    unfold denB at h
    by_cases hg : normParent g = p
    · rw [if_pos hg] at h
      simp only [bidsF, bidsB, List.cons_append, List.mem_cons,
        List.mem_append] at h
      rcases h with h | h | h
      · subst h
        simp
      · have := denB_ids_subset rest (some g.id) i h
        simp only [List.map_cons, List.mem_cons]
        exact Or.inr this
      · have := denB_ids_subset rest p i h
        simp only [List.map_cons, List.mem_cons]
        exact Or.inr this
    · rw [if_neg hg] at h
      have := denB_ids_subset rest p i h
      simp only [List.map_cons, List.mem_cons]
      exact Or.inr this

theorem attachB_absent {μ : Type} (pid : String) (nw : BNode μ) :
    ∀ (forest : List (BNode μ)), pid ∉ bidsF forest →
      attachB pid nw forest = forest
  | [], _ => by simp [attachB]
  | .mk i n m cs :: rest, h => by
    have hi : ¬ i = pid := by
      intro hc
      exact h (by simp [bidsF, bidsB, hc])
    have hcs : pid ∉ bidsF cs := fun hc => h (by simp [bidsF, bidsB, hc])
    have hrest : pid ∉ bidsF rest := fun hc => h (by simp [bidsF, hc])
    unfold attachB
    rw [if_neg hi, attachB_absent pid nw cs hcs, attachB_absent pid nw rest hrest]

/-- Appending a parentless node to a flat list appends one fresh leaf
at top level, at every denotation level. -/
theorem denB_append_root {μ : Type} (x : GNode μ) (hx : normParent x = none) :
    ∀ (ns : List (GNode μ)) (p : Option String),
      denB (ns ++ [x]) p =
        denB ns p ++
          (if p = none then [BNode.mk x.id x.name x.metadata []] else [])
  | [], p => by
    cases p with
    | none => simp [denB, hx]
    | some q => simp [denB, hx]
  | g :: rest, p => by
    rw [List.cons_append]
    simp only [denB]
    by_cases hg : normParent g = p
    · rw [if_pos hg, if_pos hg,
        denB_append_root x hx rest (some g.id), denB_append_root x hx rest p]
      simp
    · rw [if_neg hg, if_neg hg]
      exact denB_append_root x hx rest p

/-- Appending a parented node to a flat list attaches one fresh leaf
under every node carrying the parent id (unique in supported inputs),
or at the current level when the level key is that parent. -/
theorem denB_append_attach {μ : Type} (x : GNode μ) (pid : String)
    (hx : normParent x = some pid) :
    ∀ (ns : List (GNode μ)) (p : Option String), (ns.map GNode.id).Nodup →
      denB (ns ++ [x]) p =
        attachB pid (BNode.mk x.id x.name x.metadata []) (denB ns p) ++
          (if some pid = p then [BNode.mk x.id x.name x.metadata []] else [])
  | [], p, _ => by
    cases p with
    | none => simp [denB, hx, attachB]
    | some q => by_cases hq : pid = q <;> simp [denB, hx, attachB, hq]
  | g :: rest, p, hnd => by
    have hndr : (rest.map GNode.id).Nodup :=
      (List.nodup_cons.mp (by simpa using hnd)).2
    have hgid : g.id ∉ rest.map GNode.id :=
      (List.nodup_cons.mp (by simpa using hnd)).1
    rw [List.cons_append]
    simp only [denB]
    by_cases hg : normParent g = p
    · rw [if_pos hg, if_pos hg,
        denB_append_attach x pid hx rest (some g.id) hndr,
        denB_append_attach x pid hx rest p hndr]
      by_cases hpg : pid = g.id
      · rw [if_pos (show (some pid : Option String) = some g.id by rw [hpg]),
          attachB_absent pid (BNode.mk x.id x.name x.metadata [])
            (denB rest (some g.id))
            (fun hc => hgid (hpg ▸ denB_ids_subset rest (some g.id) pid hc))]
        simp only [attachB]
        rw [if_pos (show g.id = pid from hpg.symm)]
        simp
      · rw [if_neg (show ¬ (some pid : Option String) = some g.id by simpa using hpg)]
        simp only [attachB]
        rw [if_neg (show ¬ g.id = pid from fun hc => hpg hc.symm)]
        simp
    · rw [if_neg hg, if_neg hg]
      exact denB_append_attach x pid hx rest p hndr

/-- Running the `_append` fold over a coherent flat list builds
exactly the denoted forest. -/
theorem foldl_denB {μ : Type} :
    ∀ (ns ms : List (GNode μ)),
      ((ms ++ ns).map GNode.id).Nodup →
      parentsDeclared (ms.map GNode.id) ns = true →
      ns.foldlM appendStep (denB ms none, ms.map GNode.id) =
        .ok (denB (ms ++ ns) none, (ms ++ ns).map GNode.id)
  | [], ms, _, _ => by
    simp only [List.foldlM_nil, List.append_nil]
    rfl
  | x :: rest, ms, hnd, hpd => by
    rw [List.foldlM_cons]
    unfold parentsDeclared at hpd
    rw [Bool.and_eq_true] at hpd
    obtain ⟨hhead, htail⟩ := hpd
    have hxid : x.id ∉ ms.map GNode.id := by
      intro hc
      rw [List.map_append, List.nodup_append] at hnd
      exact hnd.2.2 hc (by simp)
    have hmsnd : (ms.map GNode.id).Nodup := by
      rw [List.map_append, List.nodup_append] at hnd
      exact hnd.1
    have hstep : appendStep (denB ms none, ms.map GNode.id) x =
        .ok (denB (ms ++ [x]) none, (ms ++ [x]).map GNode.id) := by
      unfold appendStep
      rw [if_neg hxid]
      cases hp : x.parent_id with
      | none =>
        dsimp only
        have hroot := denB_append_root x (by simp [normParent, hp]) ms none
        simp only [if_pos rfl] at hroot
        rw [hroot]
        simp
      | some pid =>
        dsimp only
        by_cases he : pid = ""
        · subst he
          rw [if_pos rfl]
          have hroot := denB_append_root x (by simp [normParent, hp]) ms none
          simp only [if_pos rfl] at hroot
          rw [hroot]
          simp
        · rw [if_neg he]
          have hnp : normParent x = some pid := by simp [normParent, hp, he]
          have hpin : pid ∈ ms.map GNode.id := by
            rw [hnp] at hhead
            simpa using hhead
          rw [if_pos hpin]
          have hatt := denB_append_attach x pid hnp ms none hmsnd
          simp only [if_neg (show ¬ (some pid : Option String) = none by simp),
            List.append_nil] at hatt
          rw [hatt]
          simp
    rw [hstep]
    have hnd' : (((ms ++ [x]) ++ rest).map GNode.id).Nodup := by
      rw [← List.append_cons]
      exact hnd
    have hrec := foldl_denB rest (ms ++ [x]) hnd' (by simpa using htail)
    rw [List.append_cons ms x rest]
    exact hrec

/-- `buildtree` on a coherent flat list with at least one root returns
the denoted forest, children-stripped where empty. -/
theorem buildtree_denB {μ : Type} (ns : List (GNode μ)) (name version : String)
    (hnd : (ns.map GNode.id).Nodup) (hpd : parentsDeclared [] ns = true)
    (hroots : denB ns none ≠ []) :
    buildtree ⟨name, version, ns⟩ =
      .ok ((denB ns none).map discardemptyB) := by
  unfold buildtree
  have hfold := foldl_denB ns [] (by simpa using hnd) (by simpa using hpd)
  simp only [List.nil_append] at hfold
  have h0 : (denB ([] : List (GNode μ)) none, List.map GNode.id ([] : List (GNode μ)))
      = (([] : List (BNode μ)), ([] : List String)) := by
    simp [denB]
  rw [h0] at hfold
  rw [hfold]
  cases hr : denB ns none with
  | nil => exact absurd hr hroots
  | cons r rs => rfl

theorem idsF_append {μ : Type} :
    ∀ (a b : List (TNode μ)), idsF (a ++ b) = idsF a ++ idsF b
  | [], _ => rfl
  | t :: ts, b => by
    rw [List.cons_append, idsF_cons, idsF_cons, idsF_append ts b,
      List.append_assoc]

theorem wfF_append {μ : Type} :
    ∀ (a b : List (TNode μ)), wfF (a ++ b) = (wfF a && wfF b)
  | [], _ => by simp [wfF]
  | t :: ts, b => by
    rw [List.cons_append]
    conv_lhs => rw [wfF]
    conv_rhs => rw [wfF]
    rw [wfF_append ts b, Bool.and_assoc]

theorem strictInside_subset {μ : Type} :
    ∀ (cl : List (TNode μ)) (x : String),
      x ∈ strictInside cl → x ∈ idsF cl
  | [], x, h => by simp [strictInside] at h
  | .mk i n m none :: rest, x, h => by
    rw [idsF_cons, idsT_none]
    exact List.mem_append_right _
      (strictInside_subset rest x (by simpa [strictInside] using h))
  | .mk i n m (some cl') :: rest, x, h => by
    rw [idsF_cons, idsT_some]
    simp only [strictInside, List.mem_append] at h
    rcases h with h | h
    · exact List.mem_append_left _ (List.mem_cons_of_mem _ h)
    · exact List.mem_append_right _ (strictInside_subset rest x h)

/-- The ids of a forest are its top-level ids together with the ids
strictly inside, up to order. -/
theorem idsF_perm_strict {μ : Type} :
    ∀ (cl : List (TNode μ)),
      List.Perm (idsF cl) (cl.map TNode.id ++ strictInside cl)
  | [] => List.Perm.refl _
  | .mk i n m none :: rest => by
    rw [idsF_cons, idsT_none, List.map_cons]
    simp only [strictInside, TNode.id, List.singleton_append, List.cons_append]
    exact List.Perm.cons _ (idsF_perm_strict rest)
  | .mk i n m (some cl') :: rest => by
    rw [idsF_cons, idsT_some, List.map_cons]
    simp only [strictInside, TNode.id, List.cons_append]
    refine List.Perm.cons _ ?_
    refine (List.Perm.append_left (idsF cl') (idsF_perm_strict rest)).trans ?_
    rw [← List.append_assoc, ← List.append_assoc]
    exact List.Perm.append_right _ List.perm_append_comm

/-- Top-level ids never recur strictly inside a duplicate-free forest. -/
theorem top_not_strictInside {μ : Type} (cl : List (TNode μ))
    (hnd : (idsF cl).Nodup) (c : TNode μ) (hc : c ∈ cl) :
    c.id ∉ strictInside cl := by
  intro hin
  have hperm := idsF_perm_strict cl
  have hnd' : (cl.map TNode.id ++ strictInside cl).Nodup := hperm.nodup_iff.mp hnd
  rw [List.nodup_append] at hnd'
  exact hnd'.2.2 (List.mem_map.mpr ⟨c, hc, rfl⟩) hin

theorem lookup_mem {κ ν : Type} [BEq κ] [LawfulBEq κ] :
    ∀ (l : List (κ × ν)) (k : κ) (v : ν),
      List.lookup k l = some v → (k, v) ∈ l
  | [], k, v, h => by simp at h
  | (k', v') :: rest, k, v, h => by
    rw [List.lookup_cons] at h
    cases hk : k == k' with
    | true =>
      rw [hk] at h
      obtain rfl : v' = v := Option.some_inj.mp h
      obtain rfl : k = k' := eq_of_beq hk
      exact List.mem_cons_self _ _
    | false =>
      rw [hk] at h
      exact List.mem_cons_of_mem _ (lookup_mem rest k v h)

theorem lookup_append_of_left {κ ν : Type} [BEq κ] [LawfulBEq κ] :
    ∀ (l1 l2 : List (κ × ν)) (k : κ), k ∉ l2.map Prod.fst →
      List.lookup k (l1 ++ l2) = List.lookup k l1
  | [], l2, k, h => by
    rw [List.nil_append, List.lookup_nil]
    cases hl : List.lookup k l2 with
    | none => rfl
    | some v =>
      exact absurd (List.mem_map.mpr ⟨(k, v), lookup_mem l2 k v hl, rfl⟩) h
  | (k', v') :: rest, l2, k, h => by
    rw [List.cons_append, List.lookup_cons, List.lookup_cons]
    cases hk : k == k' with
    | true => rfl
    | false => exact lookup_append_of_left rest l2 k h

theorem lookup_append_of_right {κ ν : Type} [BEq κ] [LawfulBEq κ] :
    ∀ (l1 l2 : List (κ × ν)) (k : κ), k ∉ l1.map Prod.fst →
      List.lookup k (l1 ++ l2) = List.lookup k l2
  | [], _, _, _ => rfl
  | (k', v') :: rest, l2, k, h => by
    rw [List.cons_append, List.lookup_cons]
    have hk : (k == k') = false := by
      rw [beq_eq_false_iff_ne]
      intro hc
      exact h (by simp [hc])
    rw [hk]
    exact lookup_append_of_right rest l2 k
      (fun hc => h (List.mem_cons_of_mem _ hc))

/-- Looking up any enqueued child in the freshly recorded parent
entries yields the parent's id. -/
theorem lookup_children {μ : Type} :
    ∀ (cl : List (TNode μ)) (k i : String), k ∈ cl.map TNode.id →
      List.lookup k (cl.map fun c => (c.id, i)) = some i
  | [], k, i, h => by simp at h
  | c :: rest, k, i, h => by
    rw [List.map_cons, List.lookup_cons]
    cases hk : k == c.id with
    | true => rfl
    | false =>
      refine lookup_children rest k i ?_
      rw [List.map_cons, List.mem_cons] at h
      rcases h with h' | h'
      · rw [h'] at hk
        simp at hk
      · exact h'

theorem tsizeL_append {μ : Type} :
    ∀ (a b : List (TNode μ)), tsizeL (a ++ b) = tsizeL a + tsizeL b
  | [], b => by simp [tsizeL]
  | t :: ts, b => by
    rw [List.cons_append]
    conv_lhs => rw [tsizeL]
    conv_rhs => rw [tsizeL]
    rw [tsizeL_append ts b]
    omega

theorem toBSF_eq_map {μ : Type} :
    ∀ (cl : List (TNode μ)), toBSF cl = cl.map toBS
  | [] => rfl
  | t :: ts => by
    rw [List.map_cons]
    unfold toBSF
    rw [toBSF_eq_map ts]

theorem TNode_id_mk {μ : Type} (i n : String) (m : Option μ)
    (c : Option (List (TNode μ))) : TNode.id (TNode.mk i n m c) = i := rfl

theorem normParent_emit {μ : Type} (i n : String)
    (parents : List (String × String)) :
    normParent (GNode.mk (μ := μ) i n (parents.lookup i) none) =
      apv parents i := rfl

theorem apv_mem (parents : List (String × String)) (i v : String)
    (h : apv parents i = some v) : (i, v) ∈ parents := by
  unfold apv at h
  cases hl : parents.lookup i with
  | none => rw [hl] at h; cases h
  | some s =>
    rw [hl] at h
    by_cases hs : s = ""
    · simp [hs] at h
    · simp only [hs, if_false] at h
      obtain rfl : s = v := by simpa using h
      exact lookup_mem parents i s hl

theorem id_mem_idsT {μ : Type} (c : TNode μ) : c.id ∈ idsT c := by
  cases c with
  | mk i n m ch =>
    cases ch with
    | none => simp [idsT, TNode.id]
    | some cl => simp [idsT, TNode.id]

theorem id_mem_idsF {μ : Type} :
    ∀ (cl : List (TNode μ)) (c : TNode μ), c ∈ cl → c.id ∈ idsF cl
  | c' :: rest, c, h => by
    rw [idsF_cons]
    rcases List.mem_cons.mp h with h' | h'
    · subst h'
      exact List.mem_append_left _ (id_mem_idsT c)
    · exact List.mem_append_right _ (id_mem_idsF rest c h')

theorem strictInside_append {μ : Type} :
    ∀ (a b : List (TNode μ)),
      strictInside (a ++ b) = strictInside a ++ strictInside b
  | [], _ => rfl
  | .mk i n m none :: rest, b => by
    rw [List.cons_append]
    simp only [strictInside]
    exact strictInside_append rest b
  | .mk i n m (some cl) :: rest, b => by
    rw [List.cons_append]
    simp only [strictInside]
    rw [strictInside_append rest b, List.append_assoc]

/-- The denotation of the breadth-first emission at level key `P` is
exactly the subforest of queue entries assigned parent `P`. -/
theorem denB_bfsAux {μ : Type} :
    ∀ (queue : List (TNode μ)) (parents : List (String × String)) (P : Option String),
      (idsF queue).Nodup →
      wfF queue = true →
      (∀ kv ∈ parents, kv.2 ∉ idsF queue) →
      (∀ kv ∈ parents, kv.1 ∉ strictInside queue) →
      (∀ pid, P = some pid → pid ∉ idsF queue) →
      denB (bfsAux queue parents) P =
        (queue.filter fun t => decide (apv parents t.id = P)).map toBS
  | [], parents, P, _, _, _, _, _ => by simp [bfsAux, denB]
  | .mk i n m none :: rest, parents, P, hnd, hwf, hval, hkey, hP => by
    have hnd0 : ((i :: ([] : List String)) ++ idsF rest).Nodup := by
      rw [idsF_cons, idsT_none] at hnd
      exact hnd
    rw [List.singleton_append] at hnd0
    have hndr : (idsF rest).Nodup := (List.nodup_cons.mp hnd0).2
    have hinr : i ∉ idsF rest := (List.nodup_cons.mp hnd0).1
    have hwfr : wfF rest = true := by
      conv at hwf => rw [wfF]
      rw [Bool.and_eq_true] at hwf
      exact hwf.2
    have hvalr : ∀ kv ∈ parents, kv.2 ∉ idsF rest := by
      intro kv hkv hc
      exact hval kv hkv (by
        rw [idsF_cons, idsT_none, List.singleton_append]
        exact List.mem_cons_of_mem _ hc)
    have hkeyr : ∀ kv ∈ parents, kv.1 ∉ strictInside rest := by
      intro kv hkv
      exact hkey kv hkv
    simp only [bfsAux, denB, normParent_emit, List.filter_cons, TNode_id_mk]
    by_cases hPi : apv parents i = P
    · rw [if_pos hPi, if_pos (by simpa using hPi)]
      have hsubi := denB_bfsAux rest parents (some i) hndr hwfr hvalr hkeyr
        (by intro pid hpid; injection hpid with hpid; rw [← hpid]; exact hinr)
      have hempty : (rest.filter fun t => decide (apv parents t.id = some i)) = [] := by
        rw [List.filter_eq_nil]
        intro t ht
        simp only [decide_eq_true_eq]
        intro hc
        exact hval (t.id, i) (apv_mem parents t.id i hc) (by
          rw [idsF_cons, idsT_none, List.singleton_append]
          exact List.mem_cons_self _ _)
      rw [hsubi, hempty]
      have hsubP := denB_bfsAux rest parents P hndr hwfr hvalr hkeyr
        (by
          intro pid hpid hc
          exact hP pid hpid (by
            rw [idsF_cons, idsT_none, List.singleton_append]
            exact List.mem_cons_of_mem _ hc))
      rw [hsubP]
      rfl
    · rw [if_neg hPi, if_neg (by simpa using hPi)]
      exact denB_bfsAux rest parents P hndr hwfr hvalr hkeyr
        (by
          intro pid hpid hc
          exact hP pid hpid (by
            rw [idsF_cons, idsT_none, List.singleton_append]
            exact List.mem_cons_of_mem _ hc))
  | .mk i n m (some cl) :: rest, parents, P, hnd, hwf, hval, hkey, hP => by
    have hnd0 : ((i :: idsF cl) ++ idsF rest).Nodup := by
      rw [idsF_cons, idsT_some] at hnd
      exact hnd
    rw [List.nodup_append] at hnd0
    have hicl : i ∉ idsF cl := (List.nodup_cons.mp hnd0.1).1
    have hndc : (idsF cl).Nodup := (List.nodup_cons.mp hnd0.1).2
    have hndr : (idsF rest).Nodup := hnd0.2.1
    have hdisj : (i :: idsF cl).Disjoint (idsF rest) := hnd0.2.2
    have hinr : i ∉ idsF rest := fun hc => hdisj (List.mem_cons_self _ _) hc
    have hwf' : wfT (.mk i n m (some cl)) = true ∧ wfF rest = true := by
      conv at hwf => rw [wfF]
      rw [Bool.and_eq_true] at hwf
      exact hwf
    have hine : ¬ i = "" := by
      have := hwf'.1
      unfold wfT at this
      simp only [Bool.and_eq_true, Bool.not_eq_true'] at this
      simpa [decide_eq_false_iff_not] using this.1.1
    have hwfc : wfF cl = true := by
      have := hwf'.1
      unfold wfT at this
      rw [Bool.and_eq_true] at this
      exact this.2
    have hwfr : wfF rest = true := hwf'.2
    -- invariants for the extended queue and parents map
    have hndq : (idsF (rest ++ cl)).Nodup := by
      rw [idsF_append]
      rw [List.nodup_append]
      refine ⟨hndr, hndc, ?_⟩
      intro a ha hc
      exact hdisj (List.mem_cons_of_mem _ hc) ha
    have hwfq : wfF (rest ++ cl) = true := by
      rw [wfF_append, hwfr, hwfc]
      rfl
    have hkeyscl : ∀ c ∈ cl, TNode.id c ∉ parents.map Prod.fst := by
      intro c hc hmem
      obtain ⟨kv, hkv, hfst⟩ := List.mem_map.mp hmem
      refine hkey kv hkv ?_
      simp only [strictInside]
      refine List.mem_append_left _ ?_
      rw [hfst]
      exact id_mem_idsF cl c hc
    -- invariants for the recursive calls
    have hval' : ∀ kv ∈ parents ++ cl.map (fun c => (c.id, i)),
        kv.2 ∉ idsF (rest ++ cl) := by
      intro kv hkv hc
      rw [idsF_append, List.mem_append] at hc
      rcases List.mem_append.mp hkv with hold | hnew
      · refine hval kv hold ?_
        rw [idsF_cons, idsT_some]
        rcases hc with hc | hc
        · exact List.mem_append_right _ hc
        · exact List.mem_append_left _ (List.mem_cons_of_mem _ hc)
      · obtain ⟨c, _, hkvc⟩ := List.mem_map.mp hnew
        have hv : kv.2 = i := by rw [← hkvc]
        rw [hv] at hc
        rcases hc with hc | hc
        · exact hinr hc
        · exact hicl hc
    have hkey' : ∀ kv ∈ parents ++ cl.map (fun c => (c.id, i)),
        kv.1 ∉ strictInside (rest ++ cl) := by
      intro kv hkv hc
      rw [strictInside_append, List.mem_append] at hc
      rcases List.mem_append.mp hkv with hold | hnew
      · have hks := hkey kv hold
        simp only [strictInside] at hks
        rcases hc with hc | hc
        · exact hks (List.mem_append_right _ hc)
        · exact hks (List.mem_append_left _ (strictInside_subset cl kv.1 hc))
      · obtain ⟨c, hcmem, hkvc⟩ := List.mem_map.mp hnew
        have hk : kv.1 = c.id := by rw [← hkvc]
        rw [hk] at hc
        rcases hc with hc | hc
        · exact hdisj (List.mem_cons_of_mem _ (id_mem_idsF cl c hcmem))
            (strictInside_subset rest c.id hc)
        · exact top_not_strictInside cl hndc c hcmem hc
    -- lookup stability
    have hLrest : ∀ t' ∈ rest,
        apv (parents ++ cl.map (fun c => (c.id, i))) t'.id = apv parents t'.id := by
      intro t' ht'
      unfold apv
      rw [lookup_append_of_left]
      intro hc
      simp only [List.map_map] at hc
      obtain ⟨c, hcmem, hcid⟩ := List.mem_map.mp hc
      have : t'.id ∈ idsF cl := by
        rw [← hcid]
        exact id_mem_idsF cl c hcmem
      exact hdisj (List.mem_cons_of_mem _ this) (id_mem_idsF rest t' ht')
    have hLcl : ∀ c ∈ cl,
        apv (parents ++ cl.map (fun c => (c.id, i))) c.id = some i := by
      intro c hc
      unfold apv
      rw [lookup_append_of_right _ _ _ (hkeyscl c hc),
        lookup_children cl c.id i (List.mem_map.mpr ⟨c, hc, rfl⟩)]
      simp [hine]
    simp only [bfsAux, denB, normParent_emit, List.filter_cons, TNode_id_mk]
    by_cases hPi : apv parents i = P
    · rw [if_pos hPi, if_pos (by simpa using hPi)]
      have hsubi := denB_bfsAux (rest ++ cl)
        (parents ++ cl.map (fun c => (c.id, i))) (some i) hndq hwfq hval' hkey'
        (by
          intro pid hpid
          injection hpid with hpid
          rw [← hpid]
          rw [idsF_append, List.mem_append]
          rintro (hc | hc)
          · exact hinr hc
          · exact hicl hc)
      have hfilti : ((rest ++ cl).filter fun t =>
          decide (apv (parents ++ cl.map (fun c => (c.id, i))) t.id = some i)) = cl := by
        rw [List.filter_append]
        have h1 : (rest.filter fun t =>
            decide (apv (parents ++ cl.map (fun c => (c.id, i))) t.id = some i)) = [] := by
          rw [List.filter_eq_nil]
          intro t' ht'
          simp only [decide_eq_true_eq]
          rw [hLrest t' ht']
          intro hc
          exact hval (t'.id, i) (apv_mem parents t'.id i hc) (by
            rw [idsF_cons, idsT_some]
            exact List.mem_append_left _ (List.mem_cons_self _ _))
        have h2 : (cl.filter fun t =>
            decide (apv (parents ++ cl.map (fun c => (c.id, i))) t.id = some i)) = cl := by
          rw [List.filter_eq_self]
          intro c hc
          simp only [decide_eq_true_eq]
          exact hLcl c hc
        rw [h1, h2, List.nil_append]
      have hsubP := denB_bfsAux (rest ++ cl)
        (parents ++ cl.map (fun c => (c.id, i))) P hndq hwfq hval' hkey'
        (by
          intro pid hpid hc
          refine hP pid hpid ?_
          rw [idsF_append, List.mem_append] at hc
          rw [idsF_cons, idsT_some]
          rcases hc with hc | hc
          · exact List.mem_append_right _ hc
          · exact List.mem_append_left _ (List.mem_cons_of_mem _ hc))
      have hfiltP : ((rest ++ cl).filter fun t =>
          decide (apv (parents ++ cl.map (fun c => (c.id, i))) t.id = P)) =
          rest.filter fun t => decide (apv parents t.id = P) := by
        rw [List.filter_append]
        have h1 : (rest.filter fun t =>
            decide (apv (parents ++ cl.map (fun c => (c.id, i))) t.id = P)) =
            rest.filter fun t => decide (apv parents t.id = P) :=
          List.filter_congr (fun t' ht' => by rw [hLrest t' ht'])
        have h2 : (cl.filter fun t =>
            decide (apv (parents ++ cl.map (fun c => (c.id, i))) t.id = P)) = [] := by
          rw [List.filter_eq_nil]
          intro c hc
          simp only [decide_eq_true_eq]
          rw [hLcl c hc]
          intro hc'
          refine hP i hc'.symm ?_
          rw [idsF_cons, idsT_some]
          exact List.mem_append_left _ (List.mem_cons_self _ _)
        rw [h1, h2, List.append_nil]
      rw [hsubi, hsubP, hfilti, hfiltP]
      have hhead : BNode.mk i n (none : Option μ) (cl.map toBS) =
          toBS (.mk i n m (some cl)) := by
        unfold toBS
        rw [toBSF_eq_map]
      rw [hhead]
      rfl
    · rw [if_neg hPi, if_neg (by simpa using hPi)]
      have hsubP := denB_bfsAux (rest ++ cl)
        (parents ++ cl.map (fun c => (c.id, i))) P hndq hwfq hval' hkey'
        (by
          intro pid hpid hc
          refine hP pid hpid ?_
          rw [idsF_append, List.mem_append] at hc
          rw [idsF_cons, idsT_some]
          rcases hc with hc | hc
          · exact List.mem_append_right _ hc
          · exact List.mem_append_left _ (List.mem_cons_of_mem _ hc))
      rw [hsubP]
      rw [List.filter_append]
      have h1 : (rest.filter fun t =>
          decide (apv (parents ++ cl.map (fun c => (c.id, i))) t.id = P)) =
          rest.filter fun t => decide (apv parents t.id = P) :=
        List.filter_congr (fun t' ht' => by rw [hLrest t' ht'])
      have h2 : (cl.filter fun t =>
          decide (apv (parents ++ cl.map (fun c => (c.id, i))) t.id = P)) = [] := by
        rw [List.filter_eq_nil]
        intro c hc
        simp only [decide_eq_true_eq]
        rw [hLcl c hc]
        intro hc'
        refine hP i hc'.symm ?_
        rw [idsF_cons, idsT_some]
        exact List.mem_append_left _ (List.mem_cons_self _ _)
      rw [h1, h2, List.append_nil]
termination_by queue _ _ => tsizeL queue
decreasing_by
  all_goals simp [tsizeL_append, tsizeL, tsize]
  all_goals omega

/-- The flat emission lists exactly the forest's ids, up to order. -/
theorem bfsAux_ids_perm {μ : Type} :
    ∀ (queue : List (TNode μ)) (parents : List (String × String)),
      List.Perm ((bfsAux queue parents).map GNode.id) (idsF queue)
  | [], _ => by simp [bfsAux, idsF]
  | .mk i n m none :: rest, parents => by
    simp only [bfsAux, List.map_cons]
    rw [idsF_cons, idsT_none, List.singleton_append]
    exact List.Perm.cons _ (bfsAux_ids_perm rest parents)
  | .mk i n m (some cl) :: rest, parents => by
    simp only [bfsAux, List.map_cons]
    rw [idsF_cons, idsT_some]
    refine List.Perm.trans
      (List.Perm.cons _ (bfsAux_ids_perm (rest ++ cl) _)) ?_
    rw [idsF_append, List.cons_append]
    exact List.Perm.cons _ List.perm_append_comm
termination_by queue _ => tsizeL queue
decreasing_by
  all_goals simp [tsizeL_append, tsizeL, tsize]
  all_goals omega

/-- Every emitted node's parent reference points at an id emitted
earlier (or already seen): breadth-first order is parents-first. -/
theorem bfsAux_parentsDeclared {μ : Type} :
    ∀ (queue : List (TNode μ)) (parents : List (String × String))
      (seen : List String),
      (∀ kv ∈ parents, kv.2 ∈ seen) →
      parentsDeclared seen (bfsAux queue parents) = true
  | [], _, _, _ => by simp [bfsAux, parentsDeclared]
  | .mk i n m none :: rest, parents, seen, hval => by
    simp only [bfsAux]
    unfold parentsDeclared
    rw [Bool.and_eq_true]
    constructor
    · rw [normParent_emit]
      cases hap : apv parents i with
      | none => simp
      | some pid =>
        have hmem := apv_mem parents i pid hap
        simp [hval (i, pid) hmem]
    · exact bfsAux_parentsDeclared rest parents (seen ++ [i])
        (fun kv hkv => List.mem_append_left _ (hval kv hkv))
  | .mk i n m (some cl) :: rest, parents, seen, hval => by
    simp only [bfsAux]
    unfold parentsDeclared
    rw [Bool.and_eq_true]
    constructor
    · rw [normParent_emit]
      cases hap : apv parents i with
      | none => simp
      | some pid =>
        have hmem := apv_mem parents i pid hap
        simp [hval (i, pid) hmem]
    · refine bfsAux_parentsDeclared (rest ++ cl) _ (seen ++ [i]) ?_
      intro kv hkv
      rcases List.mem_append.mp hkv with hold | hnew
      · exact List.mem_append_left _ (hval kv hold)
      · obtain ⟨c, _, hkvc⟩ := List.mem_map.mp hnew
        have : kv.2 = i := by rw [← hkvc]
        rw [this]
        exact List.mem_append_right _ (List.mem_singleton.mpr rfl)
termination_by queue _ _ => tsizeL queue
decreasing_by
  all_goals simp [tsizeL_append, tsizeL, tsize]
  all_goals omega

theorem discardemptyL_eq_map {μ : Type} :
    ∀ (bs : List (BNode μ)), discardemptyL bs = bs.map discardemptyB
  | [] => rfl
  | b :: rest => by
    rw [List.map_cons]
    conv_lhs => rw [discardemptyL]
    rw [discardemptyL_eq_map rest]

mutual

/-- Stripping empty children lists from the rebuild undoes the
flattening of a well-formed tree, except that metadata is gone. -/
theorem discardempty_toBS_T {μ : Type} :
    ∀ (t : TNode μ), wfT t = true → discardemptyB (toBS t) = stripMetaT t
  | .mk i n m none, _ => by
    unfold toBS discardemptyB stripMetaT
    simp
  | .mk i n m (some cl), hwf => by
    have hwf' := hwf
    unfold wfT at hwf'
    rw [Bool.and_eq_true, Bool.and_eq_true] at hwf'
    have hclne : cl ≠ [] := by
      intro hc
      subst hc
      simpa using hwf'.1.2
    have hwfc : wfF cl = true := hwf'.2
    unfold toBS discardemptyB stripMetaT
    have hnonempty : (toBSF cl).isEmpty = false := by
      rw [toBSF_eq_map]
      cases cl with
      | nil => exact absurd rfl hclne
      | cons a l => rfl
    rw [hnonempty]
    simp only [Bool.false_eq_true, if_false]
    rw [discardemptyL_eq_map, toBSF_eq_map]
    rw [discardempty_toBS_F cl hwfc]

theorem discardempty_toBS_F {μ : Type} :
    ∀ (cl : List (TNode μ)), wfF cl = true →
      (cl.map toBS).map discardemptyB = stripMetaF cl
  | [], _ => rfl
  | t :: ts, hwf => by
    have hwf' := hwf
    unfold wfF at hwf'
    rw [Bool.and_eq_true] at hwf'
    rw [List.map_cons, List.map_cons]
    unfold stripMetaF
    rw [discardempty_toBS_T t hwf'.1, discardempty_toBS_F ts hwf'.2]

end

mutual

theorem stripMeta_metaFree_T {μ : Type} :
    ∀ (t : TNode μ), metaFreeT t = true → stripMetaT t = t
  | .mk i n m none, hmf => by
    unfold metaFreeT at hmf
    obtain rfl : m = none := Option.isNone_iff_eq_none.mp hmf
    rfl
  | .mk i n m (some cl), hmf => by
    unfold metaFreeT at hmf
    rw [Bool.and_eq_true] at hmf
    obtain rfl : m = none := Option.isNone_iff_eq_none.mp hmf.1
    unfold stripMetaT
    rw [stripMeta_metaFree_F cl hmf.2]

theorem stripMeta_metaFree_F {μ : Type} :
    ∀ (cl : List (TNode μ)), metaFreeF cl = true → stripMetaF cl = cl
  | [], _ => rfl
  | t :: ts, hmf => by
    unfold metaFreeF at hmf
    rw [Bool.and_eq_true] at hmf
    unfold stripMetaF
    rw [stripMeta_metaFree_T t hmf.1, stripMeta_metaFree_F ts hmf.2]

end

/-- C3 amended: flattening a built tree to the persisted node-list
format and rebuilding yields the original tree with every `metadata`
field dropped (the flattening only serializes a `comments` key that
built nodes never carry); ids, names, parent-child structure and the
absence of empty children lists are preserved, and on metadata-free
trees the round-trip is the identity. -/
theorem roundtrip_rebuild {μ : Type} (forest : List (TNode μ))
    (name version : String) (hne : forest ≠ [])
    (hnd : (idsF forest).Nodup) (hwf : wfF forest = true) :
    buildtree (dumpToGeneric forest name version) = .ok (stripMetaF forest) ∧
    (metaFreeF forest = true →
      buildtree (dumpToGeneric forest name version) = .ok forest) := by
  have hden : denB (toGenericNodes forest) none = forest.map toBS := by
    have hstar := denB_bfsAux forest [] none hnd hwf
      (by intro kv hkv; cases hkv) (by intro kv hkv; cases hkv)
      (by intro pid hpid; cases hpid)
    rw [toGenericNodes, hstar]
    have : (forest.filter fun t => decide (apv [] t.id = none)) = forest := by
      rw [List.filter_eq_self]
      intro t _
      simp [apv]
    rw [this]
  have hndg : ((toGenericNodes forest).map GNode.id).Nodup :=
    ((bfsAux_ids_perm forest []).nodup_iff).mpr hnd
  have hpd : parentsDeclared [] (toGenericNodes forest) = true :=
    bfsAux_parentsDeclared forest [] [] (by intro kv hkv; cases hkv)
  have hroots : denB (toGenericNodes forest) none ≠ [] := by
    rw [hden]
    cases forest with
    | nil => exact absurd rfl hne
    | cons a l => simp
  have hbt := buildtree_denB (toGenericNodes forest) name version hndg hpd hroots
  rw [hden] at hbt
  have hmain : buildtree (dumpToGeneric forest name version) =
      .ok (stripMetaF forest) := by
    rw [show dumpToGeneric forest name version =
      ⟨name, version, toGenericNodes forest⟩ from rfl]
    rw [hbt, discardempty_toBS_F forest hwf]
  exact ⟨hmain, fun hmf => by rw [hmain, stripMeta_metaFree_F forest hmf]⟩

/-- Witness for the amended C3 at a concrete tree. -/
theorem roundtrip_rebuild_witness :
    buildtree (dumpToGeneric exTree "t" "v") = .ok exTree :=
  (roundtrip_rebuild exTree "t" "v" (by simp [exTree]) (by decide)
    (by decide)).2 (by decide)

/-- C3 counterexample: a tree whose node carries metadata does not
round-trip; the rebuilt tree has the metadata dropped, because
`_to_generic_nodes` only serializes a `comments` field, which nodes
built by `buildtree` never have. -/
theorem roundtrip_metadata_counterexample :
    buildtree (dumpToGeneric [TNode.mk "1" "a" (some "M") none] "t" "v") =
      .ok [TNode.mk "1" "a" (none : Option String) none] ∧
    TNode.mk "1" "a" (some "M") none ≠
      TNode.mk "1" "a" (none : Option String) none := by
  constructor
  · simp only [dumpToGeneric, toGenericNodes, buildtree]
    rw [show bfsAux [TNode.mk "1" "a" (some "M") none] ([] : List (String × String)) =
      [⟨"1", "a", none, none⟩] by simp [bfsAux]]
    rfl
  · intro h
    injection h with h1 h2 h3 h4
    cases h3

/-- Witness for C7 at concrete values. -/
theorem normalized_search_rescales_witness :
    rescale [(5 : ℚ), 5] = [5, 5] ∧
    (∀ s ∈ rescale [(0 : ℚ), 1, 3], 0 ≤ s ∧ s ≤ 1) ∧
    ([(97/100, TNode.mk (μ := Unit) "2" "b" none none)] : List (ℚ × TNode Unit)).length = 1 := by
  refine ⟨?_, ?_, ?_⟩
  · exact (normalized_search_rescales (μ := Unit)).1 [5, 5]
      (Or.inr (by intro x hx y hy; simp at hx hy; rw [hx, hy]))
  · exact (normalized_search_rescales (μ := Unit)).2.1 [0, 1, 3] 3 0
      (by simp [List.maximum]; rfl) (by simp [List.minimum]; rfl) (by norm_num)
  · have hres : rescale [(97 : ℚ)/100] = [97/100] :=
      rescale_skip _ (Or.inl (by simp))
    have hlook : lookup [TNode.mk (μ := Unit) "2" "b" none none] "2" =
        some (TNode.mk "2" "b" none none) := rfl
    have hround : round3 ((97 : ℚ)/100) = 97/100 := by
      unfold round3
      norm_num [round_eq]
    have hcall : nsCall [TNode.mk (μ := Unit) "2" "b" none none]
        [("2", "b", 97/100)] = some [(97/100, TNode.mk "2" "b" none none)] := by
      unfold nsCall
      simp [hres, List.mapM.loop, hlook, hround]
    have := (normalized_search_rescales (μ := Unit)).2.2
      [TNode.mk "2" "b" none none] [("2", "b", 97/100)]
      [(97/100, TNode.mk "2" "b" none none)]
    exact (this hcall).1

end TaxonomyService
